import Mathlib

/-!
# Verification of the field-workforce-safety WebSocket gateway

Shallow embedding of `cdk/backend/safetycheckflow/lambda/websocket.py`:
the connection registry handlers, the client notifier, the two agent
invocation strategies, the response normalizer (HTML extractor and HTML
cleaner), and the message dispatcher.  Strings are modelled as `List Char`
(wrapped in `String` at the interfaces); Python whitespace is modelled by
the ASCII whitespace set used by `str.split()` / `str.strip()`.
-/

set_option maxRecDepth 4096

/-- ASCII whitespace, the character class split/stripped by Python's
`str.split()` and `str.strip()` with no arguments. -/
def isPyWs (c : Char) : Bool :=
  c = ' ' || c = '\t' || c = '\n' || c = '\r' || c = '\x0b' || c = '\x0c'

/-- `response_text.replace('\\n', '')` (websocket.py line 105): delete every
occurrence of the two-character sequence backslash-`n`, scanning left to
right without overlap, exactly as Python `str.replace`. -/
def removeLitN : List Char → List Char
  | '\\' :: 'n' :: rest => removeLitN rest
  | c :: rest => c :: removeLitN rest
  | [] => []

/-- `str.replace(a, b)` for single characters (lines 106 and 108). -/
def replaceChar (a b : Char) (l : List Char) : List Char :=
  l.map fun c => if c = a then b else c

/-- `str.replace(a, '')` for a single character (line 107). -/
def removeChar (a : Char) (l : List Char) : List Char :=
  l.filter fun c => c ≠ a

/-- Core of `' '.join(s.split())`: collapse every whitespace run to a single
space, deleting a trailing run.  The flag records whether a separating
space is pending (whitespace was seen since the last emitted character);
the input is assumed to have no leading whitespace (`collapseWs` drops it
first). -/
def squeezeGo : Bool → List Char → List Char
  | _, [] => []
  | pend, c :: rest =>
    if isPyWs c then squeezeGo true rest
    else if pend then ' ' :: c :: squeezeGo false rest
    else c :: squeezeGo false rest

/-- `' '.join(s.split())` (line 111): trim the ends and collapse internal
whitespace runs to single spaces. -/
def collapseWs (l : List Char) : List Char :=
  squeezeGo false (l.dropWhile isPyWs)

/-- `str.rstrip(chars)`: remove the maximal trailing run of characters
satisfying `p`. -/
def rstripP (p : Char → Bool) : List Char → List Char
  | [] => []
  | c :: rest =>
    let r := rstripP p rest
    if r.isEmpty && p c then [] else c :: r

/-- `str.lstrip(chars)`. -/
def lstripP (p : Char → Bool) (l : List Char) : List Char :=
  l.dropWhile p

/-- `str.strip(chars)`. -/
def stripP (p : Char → Bool) (l : List Char) : List Char :=
  lstripP p (rstripP p l)

/-- The trailing junk characters removed by line 114, `rstrip('}])')`. -/
def isJunkEnd (c : Char) : Bool :=
  c = '}' || c = ']' || c = ')'

/-- The quote characters removed by line 117, `strip('"\'')`. -/
def isQuote (c : Char) : Bool :=
  c = '"' || c = '\''

/-- First index at which `pat` occurs as a contiguous substring
(Python `str.find`, `none` for `-1`). -/
def findSubFrom (pat : List Char) : List Char → Option Nat
  | [] => if pat.isEmpty then some 0 else none
  | c :: rest =>
    if pat.isPrefixOf (c :: rest) then some 0
    else (findSubFrom pat rest).map (· + 1)

/-- The HTML start patterns of line 120. -/
def htmlStartPats : List (List Char) :=
  ["<div".data, "<html".data, "<body".data, "<section".data, "<h1".data]

/-- Accumulator step of the loop at lines 123-127: keep the smaller index. -/
def optMin : Option Nat → Option Nat → Option Nat
  | none, r => r
  | some i, none => some i
  | some i, some j => some (min i j)

/-- `start_index` after the loop at lines 121-127: least index of any of the
five HTML start patterns, if one occurs. -/
def minStart (l : List Char) : Option Nat :=
  htmlStartPats.foldl (fun acc pat => optMin acc (findSubFrom pat l)) none

/-- Lines 129-130: slice from the earliest HTML start pattern when it is at a
positive index. -/
def sliceAtStart (l : List Char) : List Char :=
  match minStart l with
  | some i => if 0 < i then l.drop i else l
  | none => l

/-- Line 135, `re.sub(r'^[^<]*(?=<)', '', s)`: drop the longest `<`-free
prefix, provided a `<` occurs at all (the lookahead). -/
def dropToLt (l : List Char) : List Char :=
  if l.any (· = '<') then l.dropWhile (· ≠ '<') else l

/-- Lines 138-140: wrap in a `div` when the text does not start with `<`. -/
def wrapDiv (l : List Char) : List Char :=
  match l with
  | [] => []
  | c :: rest =>
    if c = '<' then c :: rest
    else "<div>".data ++ (c :: rest) ++ "</div>".data

/-- Index of the first `>`, if any. -/
def idxOfGt : List Char → Option Nat
  | [] => none
  | c :: rest => if c = '>' then some 0 else (idxOfGt rest).map (· + 1)

/-- Match of `</[^>]+>` at position `p`: requires `<` then `/`, then at
least one non-`>` character, then `>`.  Returns the index one past the
closing `>` (the regex match's `end()`). -/
def tagEndAt (s : List Char) (p : Nat) : Option Nat :=
  match s.drop p with
  | '<' :: '/' :: u =>
    match idxOfGt u with
    | some j => if 1 ≤ j then some (p + 3 + j) else none
    | none => none
  | _ => none

/-- The lookahead `(?=[^<]*$)`: no `<` at or after index `e`. -/
def noLtFrom (s : List Char) (e : Nat) : Bool :=
  (s.drop e).all (· ≠ '<')

/-- Position `p` matches `</[^>]+>(?=[^<]*$)`. -/
def okAt (s : List Char) (p : Nat) : Bool :=
  match tagEndAt s p with
  | some e => noLtFrom s e
  | none => false

/-- Leftmost matching position at or after `p`, trying `fuel` positions:
the scan of `re.search`. -/
def searchFrom (s : List Char) : Nat → Nat → Option Nat
  | _, 0 => none
  | p, fuel + 1 => if okAt s p then some p else searchFrom s (p + 1) fuel

/-- Start position of the `re.search(r'</[^>]+>(?=[^<]*$)', s)` match. -/
def truncIdx (s : List Char) : Option Nat :=
  searchFrom s 0 s.length

/-- Lines 143-145: truncate just after the last closing tag (the first
closing tag that is followed by no further `<`). -/
def truncAfterTag (s : List Char) : List Char :=
  match truncIdx s with
  | some p =>
    match tagEndAt s p with
    | some e => s.take e
    | none => s
  | none => s

/-- The whole body of `clean_html_response` (lines 102-147) on a non-empty
string, as a `List Char` pipeline. -/
def cleanCore (l : List Char) : List Char :=
  stripP isPyWs
    (truncAfterTag
      (wrapDiv
        (dropToLt
          (sliceAtStart
            (stripP isQuote
              (rstripP isJunkEnd
                (collapseWs
                  (replaceChar '\t' ' '
                    (removeChar '\r'
                      (replaceChar '\n' ' '
                        (removeLitN l)))))))))))

/-- `clean_html_response` (websocket.py lines 93-151).  A string argument is
falsy exactly when empty (line 98); `str()` of a string is itself; none of
the pure steps can raise, so the `except` arm (lines 149-151) is dead for
string input. -/
def clean_html_response (s : String) : String :=
  if s = "" then "" else String.mk (cleanCore s.data)

/-- `extract_html_content` (websocket.py lines 47-76): first well-formed
`<html>...</html>` block, else first `<body>...</body>` block, else the
whole text when it contains `<div` and `</div>`, else the text unchanged.
`<html>.*?</html>` with `re.DOTALL` matches from the first `<html>` to the
earliest subsequent `</html>`. -/
def containsSub (pat : List Char) (l : List Char) : Bool :=
  (findSubFrom pat l).isSome

/-- Non-greedy block match: from the first occurrence of `o`, up to and
including the earliest following occurrence of `c`. -/
def firstBlock (o c : List Char) (l : List Char) : Option (List Char)  :=
  match findSubFrom o l with
  | none => none
  | some i =>
    let rest := l.drop (i + o.length)
    match findSubFrom c rest with
    | none => none
    | some j => some (o ++ rest.take j ++ c)

/-- `extract_html_content` (lines 47-76). -/
def extract_html_content (s : String) : String :=
  match firstBlock "<html>".data "</html>".data s.data with
  | some b => String.mk b
  | none =>
    match firstBlock "<body>".data "</body>".data s.data with
    | some b => String.mk b
    | none =>
      if containsSub "<div".data s.data && containsSub "</div>".data s.data
      then s
      else s

/-! ## Predicates on cleaner inputs and outputs -/

/-- Does the string contain the two-character sequence backslash-`n`? -/
def hasLitN : List Char → Bool
  | '\\' :: 'n' :: _ => true
  | _ :: rest => hasLitN rest
  | [] => false

/-- Every whitespace character is a plain space. -/
def wsOnlySpace (l : List Char) : Bool :=
  l.all fun c => !isPyWs c || c = ' '

/-- No two adjacent whitespace characters. -/
def noAdjWs : List Char → Bool
  | a :: b :: rest => (!(isPyWs a && isPyWs b)) && noAdjWs (b :: rest)
  | _ => true

/-- The first character, if any, is not whitespace. -/
def headNotWs : List Char → Bool
  | [] => true
  | c :: _ => !isPyWs c

/-- Does the last character satisfy `p` (`false` for the empty list)? -/
def lastP (p : Char → Bool) : List Char → Bool
  | [] => false
  | [c] => p c
  | _ :: c :: rest => lastP p (c :: rest)

/-- Does the first character satisfy `p` (`false` for the empty list)? -/
def headP (p : Char → Bool) : List Char → Bool
  | [] => false
  | c :: _ => p c

/-- The text starts with one of the five HTML start patterns. -/
def headPat (l : List Char) : Prop :=
  ∃ pat ∈ htmlStartPats, pat.isPrefixOf l = true

/-- None of the five HTML start patterns occurs anywhere in the text. -/
def noPat (l : List Char) : Bool :=
  htmlStartPats.all fun pat => (findSubFrom pat l).isNone

/-! ## JSON values, Python stringification, `json.dumps` -/

/-- Parsed JSON values (Python objects produced by `json.loads`).  Numbers
are modelled as integers; object fields keep insertion order, as Python
dicts do. -/
inductive Json where
  | str (s : String)
  | num (n : Int)
  | bool (b : Bool)
  | null
  | arr (xs : List Json)
  | obj (fs : List (String × Json))

/-- Python dict lookup `d[k]` / `k in d` on a parsed JSON object. -/
def jGet : List (String × Json) → String → Option Json
  | [], _ => none
  | (k, v) :: rest, key => if k = key then some v else jGet rest key

/-- Python truthiness of a parsed JSON value (`if work_order_id:`,
`if not token:`). -/
def jTruthy : Json → Bool
  | .str s => !s.isEmpty
  | .num n => n != 0
  | .bool b => b
  | .null => false
  | .arr xs => !xs.isEmpty
  | .obj fs => !fs.isEmpty

/-- Escape one character as inside a Python `repr` string literal
(`q` is the chosen quote character). -/
def pyReprEscChar (q : Char) (c : Char) : String :=
  if c = '\\' then "\\\\"
  else if c = q then "\\" ++ String.mk [q]
  else if c = '\n' then "\\n"
  else if c = '\r' then "\\r"
  else if c = '\t' then "\\t"
  else if c.toNat < 0x20 || c.toNat = 0x7f then
    "\\x" ++ String.mk [Nat.digitChar (c.toNat / 16), Nat.digitChar (c.toNat % 16)]
  else String.mk [c]

/-- Python `repr` of a string: single quotes unless the string contains a
single quote and no double quote. -/
def pyReprStr (s : String) : String :=
  let q : Char := if s.data.contains '\'' && !s.data.contains '"' then '"' else '\''
  String.mk [q] ++ String.join (s.data.map (pyReprEscChar q)) ++ String.mk [q]

mutual

/-- Python `str()` / `repr()` of a parsed JSON value (used at the
`str(content_item)` fallbacks of `invoke_strands_agent`).  On containers
Python `str` equals `repr`. -/
def pyRepr : Json → String
  | .str s => pyReprStr s
  | .num n => toString n
  | .bool true => "True"
  | .bool false => "False"
  | .null => "None"
  | .arr xs => "[" ++ String.intercalate ", " (pyReprList xs) ++ "]"
  | .obj fs => "\x7b" ++ String.intercalate ", " (pyReprFields fs) ++ "\x7d"

/-- `repr` of the elements of a list. -/
def pyReprList : List Json → List String
  | [] => []
  | x :: rest => pyRepr x :: pyReprList rest

/-- `repr` of the fields of a dict. -/
def pyReprFields : List (String × Json) → List String
  | [] => []
  | (k, v) :: rest => (pyReprStr k ++ ": " ++ pyRepr v) :: pyReprFields rest

end

/-- `str(x)`: a string is returned unchanged, everything else through
`repr`-like stringification (`str(content_item)` etc.). -/
def pyStrOf : Json → String
  | .str s => s
  | v => pyRepr v

/-- One character of a `json.dumps` string literal with the default
`ensure_ascii=True`: escape the backslash, the double quote, the short
control escapes, other control characters and all non-ASCII as `\uXXXX`. -/
def dumpsEscChar (c : Char) : String :=
  if c = '\\' then "\\\\"
  else if c = '"' then "\\\""
  else if c = '\n' then "\\n"
  else if c = '\r' then "\\r"
  else if c = '\t' then "\\t"
  else if c.toNat = 0x08 then "\\b"
  else if c.toNat = 0x0c then "\\f"
  else if c.toNat < 0x20 || 0x7f ≤ c.toNat then
    let hex4 (n : Nat) : String :=
      String.mk [Nat.digitChar (n / 4096 % 16), Nat.digitChar (n / 256 % 16),
                 Nat.digitChar (n / 16 % 16), Nat.digitChar (n % 16)]
    if c.toNat < 0x10000 then "\\u" ++ hex4 c.toNat
    else
      let v := c.toNat - 0x10000
      "\\u" ++ hex4 (0xd800 + v / 1024) ++ "\\u" ++ hex4 (0xdc00 + v % 1024)
  else String.mk [c]

/-- `json.dumps` of a string. -/
def dumpsStr (s : String) : String :=
  "\"" ++ String.join (s.data.map dumpsEscChar) ++ "\""

mutual

/-- `json.dumps` with default separators (`', '` and `': '`). -/
def dumps : Json → String
  | .str s => dumpsStr s
  | .num n => toString n
  | .bool true => "true"
  | .bool false => "false"
  | .null => "null"
  | .arr xs => "[" ++ String.intercalate ", " (dumpsList xs) ++ "]"
  | .obj fs => "\x7b" ++ String.intercalate ", " (dumpsFields fs) ++ "\x7d"

/-- `json.dumps` of the elements of a list. -/
def dumpsList : List Json → List String
  | [] => []
  | x :: rest => dumps x :: dumpsList rest

/-- `json.dumps` of the fields of a dict. -/
def dumpsFields : List (String × Json) → List String
  | [] => []
  | (k, v) :: rest => (dumpsStr k ++ ": " ++ dumps v) :: dumpsFields rest

end

/-! ## Frames and the client notifier -/

/-- An outbound frame's `message` dict.  The code builds these dicts with
varying keys; every key it ever sets is a field here, absent keys are
`none`.  Timestamps (`datetime.now().isoformat()`, `int(time.time())`) are
modelled by an abstract monotone clock of type `Nat`. -/
structure Frame where
  ftype : String
  requestId : Option String := none
  status : Option String := none
  safetyCheckResponse : Option String := none
  safetyCheckPerformedAt : Option Nat := none
  content : Option String := none
  errMessage : Option String := none
  agentFramework : Json

/-- A frame is terminal when its type is `final` or `error`. -/
def isTerminal (f : Frame) : Bool :=
  f.ftype = "final" || f.ftype = "error"

/-- Number of terminal (`final`/`error`) frames in an emission sequence. -/
def countTerminal (fs : List Frame) : Nat :=
  (fs.filter isTerminal).length

/-- The backend identifier a frame carries, when it is a plain string. -/
def frameworkName (j : Json) : Option String :=
  match j with
  | .str s => some s
  | _ => none

/-- Outcome of one `post_to_connection` attempt. -/
inductive PushOutcome where
  | ok
  | gone
  | err (e : String)

/-- Behaviour of the transport and registry for one notifier call. -/
structure NotifierEnv where
  push : PushOutcome
  deleteFails : Bool

/-- `ws_connection_table.delete_item(Key={'connectionId': c})`: removes the
entry if present; absence is not an error.  May fail for infrastructure
reasons. -/
def registryDelete (fails : Bool) (reg : List String) (c : String) :
    Except String (List String) :=
  if fails then .error "delete failed" else .ok (reg.filter (· ≠ c))

/-- `ws_connection_table.put_item(...)`: create or refresh the entry.
May fail for infrastructure reasons. -/
def registryPut (fails : Bool) (reg : List String) (c : String) :
    Except String (List String) :=
  if fails then .error "put failed"
  else .ok (if reg.contains c then reg else c :: reg)

/-- `send_to_client` (websocket.py lines 540-567).  The frame is serialized
with timestamps coerced to strings and pushed; a `GoneException` deletes
the stale registry entry (deletion errors are themselves swallowed,
lines 559-562); every other delivery error is logged and swallowed
(lines 563-567).  The `Except` result reflects whether an exception
escapes to the caller. -/
def send_to_client (env : NotifierEnv) (reg : List String)
    (connectionId : String) (_frame : Frame) : Except String (List String) :=
  match env.push with
  | .ok => .ok reg
  | .gone =>
    match registryDelete env.deleteFails reg connectionId with
    | .ok r => .ok r
    | .error _ => .ok reg
  | .err _ => .ok reg

/-! ## Agent invocation strategies -/

/-- One unit of the Bedrock `completion` iterator: it may carry a `chunk`
(whose `bytes`, when present, decode to text) and may carry a `trace`
event (opaque payload). -/
structure StreamUnit where
  chunk : Option (Option String) := none
  trace : Option String := none

/-- The text a unit contributes to the accumulator. -/
def chunkText (u : StreamUnit) : Option String :=
  match u.chunk with
  | some (some b) => some b
  | _ => none

/-- The trace frame sent at line 365 for a trace event. -/
def mkBedrockTrace (t : String) : Frame :=
  { ftype := "trace", content := some t, agentFramework := .str "BedrockAgent" }

/-- The loop at lines 354-369: accumulate chunk text, forward each trace
event as a `trace` frame at the point it is encountered. -/
def processUnits : List StreamUnit → String × List Frame
  | [] => ("", [])
  | u :: rest =>
    let tail := processUnits rest
    ((chunkText u).getD "" ++ tail.1,
     (match u.trace with
      | some t => [mkBedrockTrace t]
      | none => []) ++ tail.2)

/-- Configuration and behaviour of the Bedrock backend for one request. -/
structure BedrockEnv where
  configured : Bool
  result : Except String (List StreamUnit)

/-- `invoke_bedrock_agent` (lines 320-381): returns the accumulated
completion text and the frames the gateway emitted while running.
Unconfigured agent ids or a raised exception become a descriptive error
frame whose text is also the returned result.  The payload is forwarded to
the backend, whose behaviour for this request `env.result` abstracts. -/
def invoke_bedrock_agent (env : BedrockEnv) (_payload : String) : String × List Frame :=
  if !env.configured then
    let msg := "Bedrock agent IDs not configured"
    (msg, [{ ftype := "error", errMessage := some msg,
             agentFramework := .str "BedrockAgent" }])
  else
    match env.result with
    | .error e =>
      let msg := "Error invoking Bedrock agent: " ++ e
      (msg, [{ ftype := "error", content := some msg,
               agentFramework := .str "BedrockAgent" }])
    | .ok units => processUnits units

/-- Branch-1 loop body (lines 216-242): a dict item contributes its `text`
value (stringified when not a string) or, lacking one, its own
stringification; a string item contributes itself; anything else its
stringification. -/
def strandsItemText1 (item : Json) : String :=
  match item with
  | .obj f =>
    match jGet f "text" with
    | some t => pyStrOf t
    | none => pyRepr (.obj f)
  | .str s => s
  | v => pyRepr v

/-- Branch-2 loop body (lines 255-266): like branch 1, except a dict item
without a `text` key contributes nothing. -/
def strandsItemText2 (item : Json) : String :=
  match item with
  | .obj f =>
    match jGet f "text" with
    | some t => pyStrOf t
    | none => ""
  | .str s => s
  | v => pyRepr v

/-- Extraction of the completion text from a 200-status Strands result body
(lines 200-274): try `response` (itself a dict with `content` list /
`message`, or a bare string), then a top-level `content` list, then a
top-level `message`, and finally fall back to `json.dumps` of the whole
body. -/
def strandsExtract (body : List (String × Json)) : String :=
  match jGet body "response" with
  | some r =>
    match r with
    | .obj rf =>
      match jGet rf "content" with
      | some (.arr items) => String.join (items.map strandsItemText1)
      | _ =>
        match jGet rf "message" with
        | some m => pyStrOf m
        | none => dumps (.obj rf)
    | .str s => s
    | v => pyRepr v
  | none =>
    match jGet body "content" with
    | some (.arr items) => String.join (items.map strandsItemText2)
    | _ =>
      match jGet body "message" with
      | some m => pyStrOf m
      | none => dumps (.obj body)

/-- Result of `lambda_client.invoke` plus the response-payload parsing at
lines 184-197: an exception anywhere in that plumbing, an `error` field in
the payload (line 192, re-raised and caught), a 200 status with the parsed
body dict, or a non-200 status. -/
inductive StrandsOutcome where
  | raise (e : String)
  | errField (e : String)
  | ok (body : List (String × Json))
  | notOk (bodyText : String)

/-- Behaviour of the delegated Strands lambda for one request. -/
structure StrandsEnv where
  outcome : StrandsOutcome

/-- The initial processing trace frame sent at lines 159-172. -/
def strandsInitTrace : Frame :=
  { ftype := "trace",
    content := some "Initializing Strands Safety Supervisor Agent",
    agentFramework := .str "StrandsSDK" }

/-- `invoke_strands_agent` (lines 153-314): returns the completion text,
the frames the gateway emitted, and the advanced clock.  On success the
extracted text is cleaned and a `final` frame is sent by this function
itself (lines 286-293) before the cleaned text is returned; all failure
shapes send an `error` frame and return the error text. -/
def invoke_strands_agent (env : StrandsEnv) (_payload : String)
    (connectionId : String) (clk : Nat) : String × List Frame × Nat :=
  match env.outcome with
  | .raise e =>
    let msg := "Error invoking Strands agent: " ++ e
    (msg, [strandsInitTrace,
           { ftype := "error", safetyCheckResponse := some msg,
             agentFramework := .str "StrandsSDK" }], clk)
  | .errField e =>
    let msg := "Error invoking Strands agent: " ++ e
    (msg, [strandsInitTrace,
           { ftype := "error", safetyCheckResponse := some msg,
             agentFramework := .str "StrandsSDK" }], clk)
  | .ok body =>
    let cleaned := clean_html_response (strandsExtract body)
    (cleaned,
     [strandsInitTrace,
      { ftype := "final",
        requestId := some ("ws-strands-" ++ connectionId ++ "-" ++ toString clk),
        status := some "COMPLETED",
        safetyCheckResponse := some cleaned,
        safetyCheckPerformedAt := some (clk + 1),
        agentFramework := .str "StrandsSDK" }], clk + 2)
  | .notOk b =>
    let msg := "Strands agent error: " ++ b
    (msg, [strandsInitTrace,
           { ftype := "error", safetyCheckResponse := some msg,
             agentFramework := .str "StrandsSDK" }], clk)

/-! ## Dispatcher -/

/-- HTTP-style result of a handler. -/
structure Resp where
  statusCode : Nat
  body : String

/-- Everything observable about one invocation: the returned response, the
frames the gateway attempted to deliver (in order), which strategies were
invoked, and the work-order store updates performed. -/
structure StoreWrite where
  workOrderId : Json
  safetyCheckResponse : String
  safetyCheckPerformedAt : Nat

/-- Observable outcome of one handler invocation. -/
structure Outcome where
  resp : Resp
  frames : List Frame := []
  strategyCalls : List String := []
  writes : List StoreWrite := []

/-- Environment of `handle_message` for one request. -/
structure DispatchEnv where
  bedrock : BedrockEnv
  strands : StrandsEnv
  workOrdersConfigured : Bool
  updateFails : Bool
  uuidSession : String
  uuidRequest : String
  fault : Option String

/-- Was the requested framework exactly the string `"StrandsSDK"`
(line 470)?  Anything else, including an absent field defaulting to
`"BedrockAgent"` (line 467), routes to the Bedrock strategy. -/
def wantsStrands (m : List (String × Json)) : Bool :=
  match jGet m "agentFramework" with
  | some (.str s) => s = "StrandsSDK"
  | _ => false

/-- The `agentFramework` value echoed into terminal frames:
`event_body.get('agentFramework', 'BedrockAgent')`. -/
def requestedFramework (m : List (String × Json)) : Json :=
  (jGet m "agentFramework").getD (.str "BedrockAgent")

/-- The persistence block (lines 477-507): update the work-order record
when the table is configured, `workOrderDetails` is a dict carrying a
truthy `work_order_id`, and the update itself does not raise; every
failure inside the block is logged and swallowed. -/
def persistStep (env : DispatchEnv) (m : List (String × Json))
    (completion : String) (currentTime : Nat) : List StoreWrite :=
  if env.workOrdersConfigured then
    match jGet m "workOrderDetails" with
    | some (.obj w) =>
      match jGet w "work_order_id" with
      | some id =>
        if jTruthy id && !env.updateFails then
          [⟨id, extract_html_content completion, currentTime⟩]
        else []
      | none => []
    | some _ => []
    | none => []
  else []

/-- The backend payload (lines 457-462): the work-order details serialized
alone when present (the `except` at line 463 catches the `KeyError`), else
the whole message body. -/
def payloadOf (m : List (String × Json)) : String :=
  match jGet m "workOrderDetails" with
  | some w => dumps w
  | none => dumps (.obj m)

/-- The strategy dispatch at lines 466-473: the selected strategy's
completion text, emitted frames, advanced clock, and a tag naming which
strategy ran. -/
def strategyStep (env : DispatchEnv) (connectionId : String)
    (m : List (String × Json)) (clk : Nat) : String × List Frame × Nat × String :=
  if wantsStrands m then
    let r := invoke_strands_agent env.strands (payloadOf m) connectionId clk
    (r.1, r.2.1, r.2.2, "strands")
  else
    let r := invoke_bedrock_agent env.bedrock (payloadOf m)
    (r.1, r.2, clk, "bedrock")

/-- The final frame sent at lines 509-518: the (possibly uncleaned)
completion, a `COMPLETED` status, the timestamp captured at line 476 after
the strategy returned, and the requested framework echoed verbatim. -/
def dispatchFinalFrame (env : DispatchEnv) (connectionId : String)
    (m : List (String × Json)) (clk : Nat) : Frame :=
  { ftype := "final",
    requestId := some ("ws-" ++ connectionId ++ "-" ++
      toString (strategyStep env connectionId m clk).2.2.1),
    status := some "COMPLETED",
    safetyCheckResponse := some (strategyStep env connectionId m clk).1,
    safetyCheckPerformedAt := some (strategyStep env connectionId m clk).2.2.1,
    agentFramework := requestedFramework m }

/-- The `try` body of `handle_message` (lines 447-522).  `DispatchEnv.fault`
injects an unanticipated runtime exception between the strategy call and
the persistence block, standing for any unhandled exception inside the
`try`; on a raise the effects already performed are carried to the
handler. -/
def handle_message_try (env : DispatchEnv) (connectionId : String)
    (m : List (String × Json)) (clk : Nat) :
    Except (String × List Frame × List String) Outcome :=
  match env.fault with
  | some e =>
    .error (e, (strategyStep env connectionId m clk).2.1,
            [(strategyStep env connectionId m clk).2.2.2])
  | none =>
    .ok { resp := ⟨200, "Message sent"⟩,
          frames := (strategyStep env connectionId m clk).2.1 ++
            [dispatchFinalFrame env connectionId m clk],
          strategyCalls := [(strategyStep env connectionId m clk).2.2.2],
          writes := persistStep env m (strategyStep env connectionId m clk).1
            (strategyStep env connectionId m clk).2.2.1 }

/-- `handle_message` (lines 446-538): the `except` arm (lines 524-538)
turns any exception into a best-effort `error` frame and a 500 result. -/
def handle_message (env : DispatchEnv) (connectionId : String)
    (m : List (String × Json)) (clk : Nat) : Outcome :=
  match handle_message_try env connectionId m clk with
  | .ok o => o
  | .error (e, fs, calls) =>
    { resp := ⟨500, "Failed to process message: " ++ e⟩,
      frames := fs ++
        [{ ftype := "error",
           requestId := some env.uuidRequest,
           status := some "COMPLETED",
           safetyCheckResponse := some ("Error in performing safety check::" ++ e),
           agentFramework := requestedFramework m }],
      strategyCalls := calls }

/-! ## Lambda entry point -/

/-- The `body` field of a `$default` event after the checks at
lines 596-604: absent or empty, invalid JSON, valid JSON that is not an
object (so `message.get` raises `AttributeError`), or an object. -/
inductive EventBody where
  | absent
  | invalid
  | nonDict
  | dict (m : List (String × Json))

/-- The parts of `event['requestContext']` the handler reads. -/
structure RequestContext where
  routeKey : Option String
  connectionId : Option String
  hasDomainStage : Bool

/-- A transport event. -/
structure WsEvent where
  requestContext : Option RequestContext
  body : EventBody

/-- Environment of one `lambda_handler` invocation. -/
structure GatewayEnv where
  dispatch : DispatchEnv
  registry : NotifierEnv
  regPutFails : Bool
  regDeleteFails : Bool
  tokenValid : Json → Bool

/-- Is the message a heartbeat (line 607)? -/
def isHeartbeat (m : List (String × Json)) : Bool :=
  match jGet m "messageType" with
  | some (.str s) => s = "heartbeat"
  | _ => false

/-- `handle_connect` (lines 420-434): put the connection into the registry;
errors are logged and the connect is acknowledged regardless. -/
def handle_connect (putFails : Bool) (reg : List String) (c : String) :
    Resp × List String :=
  match registryPut putFails reg c with
  | .ok r => (⟨200, "Connected"⟩, r)
  | .error _ => (⟨200, "Connected"⟩, reg)

/-- `handle_disconnect` (lines 436-444): delete the connection; errors are
logged and the disconnect is acknowledged regardless. -/
def handle_disconnect (deleteFails : Bool) (reg : List String) (c : String) :
    Resp × List String :=
  match registryDelete deleteFails reg c with
  | .ok r => (⟨200, "Disconnected"⟩, r)
  | .error _ => (⟨200, "Disconnected"⟩, reg)

/-- The `try` body of `lambda_handler` (lines 571-649).  The one exception
source reachable in this model is a non-dict message body, whose
`message.get` raises `AttributeError` (line 607); it escapes to the outer
boundary. -/
def lambda_handler_try (env : GatewayEnv) (reg : List String) (ev : WsEvent)
    (clk : Nat) : Except String (Outcome × List String) :=
  match ev.requestContext with
  | none => .ok ({ resp := ⟨400, "Invalid WebSocket event structure"⟩ }, reg)
  | some rc =>
    match rc.routeKey, rc.connectionId with
    | some route, some cid =>
      if route = "$connect" then
        let (resp, reg2) := handle_connect env.regPutFails reg cid
        .ok ({ resp := resp }, reg2)
      else if route = "$disconnect" then
        let (resp, reg2) := handle_disconnect env.regDeleteFails reg cid
        .ok ({ resp := resp }, reg2)
      else if route = "$default" then
        match ev.body with
        | .absent => .ok ({ resp := ⟨400, "Missing request body"⟩ }, reg)
        | .invalid => .ok ({ resp := ⟨400, "Invalid JSON in request body"⟩ }, reg)
        | .nonDict => .error "AttributeError: object has no attribute get"
        | .dict m =>
          if isHeartbeat m then
            .ok ({ resp := ⟨200, "Heartbeat received, no action taken"⟩ }, reg)
          else if !rc.hasDomainStage then
            .ok ({ resp := ⟨500, "Missing API Gateway configuration"⟩ }, reg)
          else
            match jGet m "token" with
            | none => .ok ({ resp := ⟨403, "Token is required"⟩ }, reg)
            | some tok =>
              if !jTruthy tok then
                .ok ({ resp := ⟨403, "Token is required"⟩ }, reg)
              else if env.tokenValid tok then
                .ok (handle_message env.dispatch cid m clk, reg)
              else
                .ok ({ resp := ⟨403, "Invalid Token"⟩ }, reg)
      else .ok ({ resp := ⟨400, "Unsupported route: " ++ route⟩ }, reg)
    | _, _ => .ok ({ resp := ⟨400, "Missing required WebSocket fields"⟩ }, reg)

/-- `lambda_handler` (lines 569-654): the outer boundary converts any
escaped exception into a 500 result (lines 651-654). -/
def lambda_handler (env : GatewayEnv) (reg : List String) (ev : WsEvent)
    (clk : Nat) : Outcome × List String :=
  match lambda_handler_try env reg ev clk with
  | .ok r => r
  | .error e => ({ resp := ⟨500, "Internal server error: " ++ e⟩ }, reg)

/-! ## Concrete scenarios used by the closed theorems -/

/-- A fully healthy gateway environment whose delegated Strands lambda
returns status 200 with body `{"message": "<div>ok</div>"}`. -/
def strandsOkGateway : GatewayEnv :=
  { dispatch :=
      { bedrock := { configured := true, result := .ok [] },
        strands := { outcome := .ok [("message", Json.str "<div>ok</div>")] },
        workOrdersConfigured := false, updateFails := false,
        uuidSession := "uuid-session", uuidRequest := "uuid-request",
        fault := none },
    registry := { push := .ok, deleteFails := false },
    regPutFails := false, regDeleteFails := false,
    tokenValid := fun _ => true }

/-- A data message selecting the delegating Variant B backend. -/
def strandsSelectEvent : WsEvent :=
  { requestContext := some
      { routeKey := some "$default", connectionId := some "C1",
        hasDomainStage := true },
    body := .dict [("token", Json.str "T"),
                   ("agentFramework", Json.str "StrandsSDK")] }

/-- A data message carrying an unrecognized `agentFramework` value. -/
def unrecognizedSelectEvent : WsEvent :=
  { requestContext := some
      { routeKey := some "$default", connectionId := some "C1",
        hasDomainStage := true },
    body := .dict [("token", Json.str "T"),
                   ("agentFramework", Json.str "NotARealFramework")] }

/-! ## Helper lemmas -/

theorem string_join_shift (l : List String) (a : String) :
    List.foldl (fun r s => r ++ s) a l = a ++ List.foldl (fun r s => r ++ s) "" l := by
  induction l generalizing a with
  | nil => simp [String.append_empty]
  | cons s rest ih =>
    simp only [List.foldl_cons]
    rw [ih (a ++ s), ih ("" ++ s), String.empty_append, String.append_assoc]

theorem string_join_cons (s : String) (l : List String) :
    String.join (s :: l) = s ++ String.join l := by
  show List.foldl (fun r t => r ++ t) ("" ++ s) l = s ++ List.foldl (fun r t => r ++ t) "" l
  rw [String.empty_append, string_join_shift]

theorem processUnits_fst (us : List StreamUnit) :
    (processUnits us).1 = String.join (us.filterMap chunkText) := by
  induction us with
  | nil => rfl
  | cons u rest ih =>
    simp only [processUnits, List.filterMap_cons]
    cases hc : chunkText u with
    | none =>
      show "" ++ (processUnits rest).1 = String.join (List.filterMap chunkText rest)
      rw [String.empty_append, ih]
    | some b =>
      show b ++ (processUnits rest).1 = String.join (b :: List.filterMap chunkText rest)
      rw [string_join_cons, ih]

theorem strategyStep_bedrock (env : DispatchEnv) (cid : String)
    (m : List (String × Json)) (clk : Nat) (hws : wantsStrands m = false) :
    strategyStep env cid m clk =
      ((invoke_bedrock_agent env.bedrock (payloadOf m)).1,
       (invoke_bedrock_agent env.bedrock (payloadOf m)).2, clk, "bedrock") := by
  unfold strategyStep
  rw [hws]
  rfl

theorem strategyStep_strands (env : DispatchEnv) (cid : String)
    (m : List (String × Json)) (clk : Nat) (hws : wantsStrands m = true) :
    strategyStep env cid m clk =
      ((invoke_strands_agent env.strands (payloadOf m) cid clk).1,
       (invoke_strands_agent env.strands (payloadOf m) cid clk).2.1,
       (invoke_strands_agent env.strands (payloadOf m) cid clk).2.2, "strands") := by
  unfold strategyStep
  rw [hws]
  rfl

theorem processUnits_snd (us : List StreamUnit) :
    (processUnits us).2 = (us.filterMap StreamUnit.trace).map mkBedrockTrace := by
  induction us with
  | nil => rfl
  | cons u rest ih =>
    simp only [processUnits, List.filterMap_cons]
    cases ht : u.trace with
    | none => simpa using ih
    | some t => simp [ht, ih]

/-! ## Claims -/

/-- C1: the spec's invariant — exactly one `final` or `error` frame per
processed request, and for the delegating Variant B the gateway must not
emit a second `final` frame — is violated by the code: on the Variant B
success path `invoke_strands_agent` sends a `final` frame (line 286) and
`handle_message` then unconditionally sends a second `final` frame
(line 511): the processed request below yields the frame sequence
`trace, final, final`, two terminal frames. -/
theorem c1_duplicate_final_on_variant_b :
    ((lambda_handler strandsOkGateway [] strandsSelectEvent 0).1.frames.map
        Frame.ftype) = ["trace", "final", "final"] ∧
    countTerminal (lambda_handler strandsOkGateway [] strandsSelectEvent 0).1.frames = 2 := by
  exact ⟨by decide, by decide⟩

/-- C2: a `$default` data message (non-heartbeat, with transport metadata
present) whose token is missing, falsy, or fails verification is rejected
with a 403 result, emits no frame at all, and invokes no strategy. -/
theorem c2_auth_failure_rejected (env : GatewayEnv) (reg : List String)
    (cid : String) (m : List (String × Json)) (clk : Nat)
    (hhb : isHeartbeat m = false)
    (htok : jGet m "token" = none ∨
            ∃ t, jGet m "token" = some t ∧
                 (jTruthy t = false ∨ env.tokenValid t = false)) :
    (lambda_handler env reg
        { requestContext := some
            { routeKey := some "$default", connectionId := some cid,
              hasDomainStage := true },
          body := .dict m } clk).1.resp.statusCode = 403 ∧
    (lambda_handler env reg
        { requestContext := some
            { routeKey := some "$default", connectionId := some cid,
              hasDomainStage := true },
          body := .dict m } clk).1.frames = [] ∧
    (lambda_handler env reg
        { requestContext := some
            { routeKey := some "$default", connectionId := some cid,
              hasDomainStage := true },
          body := .dict m } clk).1.strategyCalls = [] := by
  unfold lambda_handler lambda_handler_try
  rcases htok with h | ⟨t, ht, h⟩
  · simp [hhb, h]
  · rcases h with h | h
    · simp [hhb, ht, h]
    · cases hjt : jTruthy t <;> simp [hhb, ht, h, hjt]

/-- C2 witness: a message with no token field is rejected 403 with no
frames and no strategy call. -/
theorem c2_witness :
    isHeartbeat [("sessionId", Json.str "s")] = false ∧
    ((jGet [("sessionId", Json.str "s")] "token" = none) ∨
      ∃ t, jGet [("sessionId", Json.str "s")] "token" = some t ∧
           (jTruthy t = false ∨ strandsOkGateway.tokenValid t = false)) ∧
    ((lambda_handler strandsOkGateway ["C9"]
        { requestContext := some
            { routeKey := some "$default", connectionId := some "C9",
              hasDomainStage := true },
          body := .dict [("sessionId", Json.str "s")] } 0).1.resp.statusCode = 403 ∧
     (lambda_handler strandsOkGateway ["C9"]
        { requestContext := some
            { routeKey := some "$default", connectionId := some "C9",
              hasDomainStage := true },
          body := .dict [("sessionId", Json.str "s")] } 0).1.frames = [] ∧
     (lambda_handler strandsOkGateway ["C9"]
        { requestContext := some
            { routeKey := some "$default", connectionId := some "C9",
              hasDomainStage := true },
          body := .dict [("sessionId", Json.str "s")] } 0).1.strategyCalls = []) :=
  ⟨rfl, Or.inl rfl,
   c2_auth_failure_rejected strandsOkGateway ["C9"] "C9"
     [("sessionId", Json.str "s")] 0 rfl (Or.inl rfl)⟩

/-- C3: for a configured Variant A backend, the returned final text is the
concatenation of all chunk texts in iterator order, and the frames emitted
are exactly the trace events in iterator order tagged `BedrockAgent`, each
forwarded at the point it is encountered (after any prefix of the
iterator, the frames emitted are exactly the traces of that prefix). -/
theorem c3_streaming_concat_and_traces (env : BedrockEnv) (payload : String)
    (units : List StreamUnit)
    (hconf : env.configured = true) (hres : env.result = .ok units) :
    (invoke_bedrock_agent env payload).1 = String.join (units.filterMap chunkText) ∧
    (invoke_bedrock_agent env payload).2 =
      (units.filterMap StreamUnit.trace).map mkBedrockTrace ∧
    ∀ n, (processUnits (units.take n)).2 =
      ((units.take n).filterMap StreamUnit.trace).map mkBedrockTrace := by
  unfold invoke_bedrock_agent
  rw [hconf, hres]
  exact ⟨processUnits_fst units, processUnits_snd units,
         fun n => processUnits_snd (units.take n)⟩

/-- C3 witness at a three-unit iterator mixing chunks and traces. -/
theorem c3_witness :
    ({ configured := true,
       result := .ok [⟨some (some "<div>"), none⟩, ⟨none, some "T1"⟩,
                      ⟨some (some "x</div>"), some "T2"⟩] } : BedrockEnv).configured = true ∧
    ({ configured := true,
       result := .ok [⟨some (some "<div>"), none⟩, ⟨none, some "T1"⟩,
                      ⟨some (some "x</div>"), some "T2"⟩] } : BedrockEnv).result =
      .ok [⟨some (some "<div>"), none⟩, ⟨none, some "T1"⟩,
           ⟨some (some "x</div>"), some "T2"⟩] ∧
    (invoke_bedrock_agent
        { configured := true,
          result := .ok [⟨some (some "<div>"), none⟩, ⟨none, some "T1"⟩,
                         ⟨some (some "x</div>"), some "T2"⟩] } "payload").1 =
      String.join (([⟨some (some "<div>"), none⟩, ⟨none, some "T1"⟩,
                     ⟨some (some "x</div>"), some "T2"⟩] :
        List StreamUnit).filterMap chunkText) :=
  ⟨rfl, rfl,
   (c3_streaming_concat_and_traces _ "payload" _ rfl rfl).1⟩

/-- C4: Variant B extraction tries the shapes in fixed priority order: a
`content` list of `text` items concatenates the texts, a `message` field
is returned as is, and a body matching neither shape is JSON-stringified
whole. -/
theorem c4_extraction_priority (a b x : String) (body : List (String × Json))
    (hnr : jGet body "response" = none) :
    (jGet body "content" =
        some (Json.arr [Json.obj [("text", Json.str a)],
                        Json.obj [("text", Json.str b)]]) →
      strandsExtract body = a ++ b) ∧
    (jGet body "content" = none → jGet body "message" = some (Json.str x) →
      strandsExtract body = x) ∧
    (jGet body "content" = none → jGet body "message" = none →
      strandsExtract body = dumps (Json.obj body)) := by
  unfold strandsExtract
  rw [hnr]
  refine ⟨fun hc => ?_, fun hc hm => ?_, fun hc hm => ?_⟩
  · rw [hc]
    show String.join [strandsItemText2 (Json.obj [("text", Json.str a)]),
                      strandsItemText2 (Json.obj [("text", Json.str b)])] = a ++ b
    rw [string_join_cons, string_join_cons]
    show a ++ (b ++ String.join []) = a ++ b
    have hj : String.join ([] : List String) = "" := rfl
    rw [hj, String.append_empty]
  · rw [hc, hm]; rfl
  · rw [hc, hm]

/-- C4 witness at the three concrete bodies of the claim. -/
theorem c4_witness :
    jGet [("content", Json.arr [Json.obj [("text", Json.str "a")],
                                Json.obj [("text", Json.str "b")]])] "response" = none ∧
    (jGet [("content", Json.arr [Json.obj [("text", Json.str "a")],
                                 Json.obj [("text", Json.str "b")]])] "content" =
        some (Json.arr [Json.obj [("text", Json.str "a")],
                        Json.obj [("text", Json.str "b")]]) →
      strandsExtract [("content", Json.arr [Json.obj [("text", Json.str "a")],
                                            Json.obj [("text", Json.str "b")]])] = "a" ++ "b") ∧
    strandsExtract [("message", Json.str "x")] = "x" ∧
    strandsExtract [("other", Json.num 1)] = dumps (Json.obj [("other", Json.num 1)]) :=
  ⟨rfl,
   (c4_extraction_priority "a" "b" "x"
      [("content", Json.arr [Json.obj [("text", Json.str "a")],
                             Json.obj [("text", Json.str "b")]])] rfl).1,
   (c4_extraction_priority "a" "b" "x" [("message", Json.str "x")] rfl).2.1 rfl rfl,
   (c4_extraction_priority "a" "b" "x" [("other", Json.num 1)] rfl).2.2 rfl rfl⟩

/-- C5: an exception escaping the `try` body of `handle_message` is caught
at the dispatcher boundary and converted into a best-effort `error` frame
plus a 500 result, and an exception escaping the `try` body of
`lambda_handler` is caught at the outer boundary and converted into a 500
result; neither handler propagates the exception. -/
theorem c5_exceptions_contained (env : DispatchEnv) (cid : String)
    (m : List (String × Json)) (clk : Nat) (e : String) (fs : List Frame)
    (calls : List String) (genv : GatewayEnv) (reg : List String)
    (ev : WsEvent) (clk2 : Nat) (e2 : String)
    (h1 : handle_message_try env cid m clk = .error (e, fs, calls))
    (h2 : lambda_handler_try genv reg ev clk2 = .error e2) :
    (handle_message env cid m clk).resp.statusCode = 500 ∧
    (handle_message env cid m clk).frames = fs ++
      [{ ftype := "error", requestId := some env.uuidRequest,
         status := some "COMPLETED",
         safetyCheckResponse := some ("Error in performing safety check::" ++ e),
         agentFramework := requestedFramework m }] ∧
    (lambda_handler genv reg ev clk2).1.resp.statusCode = 500 ∧
    (lambda_handler genv reg ev clk2).1.resp.body = "Internal server error: " ++ e2 := by
  unfold handle_message lambda_handler
  rw [h1, h2]
  exact ⟨rfl, rfl, rfl, rfl⟩

/-- C5 witness: a fault injected after the strategy call, and a non-dict
message body raising at the outer boundary, are both converted to 500. -/
theorem c5_witness :
    handle_message_try
        { bedrock := { configured := false, result := .ok [] },
          strands := { outcome := .raise "unused" },
          workOrdersConfigured := false, updateFails := false,
          uuidSession := "us", uuidRequest := "ur", fault := some "boom" }
        "C7x" [] 0 =
      .error ("boom",
        [{ ftype := "error",
           errMessage := some "Bedrock agent IDs not configured",
           agentFramework := .str "BedrockAgent" }], ["bedrock"]) ∧
    lambda_handler_try strandsOkGateway []
        { requestContext := some
            { routeKey := some "$default", connectionId := some "C7x",
              hasDomainStage := true },
          body := .nonDict } 0 =
      .error "AttributeError: object has no attribute get" ∧
    ((handle_message
        { bedrock := { configured := false, result := .ok [] },
          strands := { outcome := .raise "unused" },
          workOrdersConfigured := false, updateFails := false,
          uuidSession := "us", uuidRequest := "ur", fault := some "boom" }
        "C7x" [] 0).resp.statusCode = 500 ∧
     (handle_message
        { bedrock := { configured := false, result := .ok [] },
          strands := { outcome := .raise "unused" },
          workOrdersConfigured := false, updateFails := false,
          uuidSession := "us", uuidRequest := "ur", fault := some "boom" }
        "C7x" [] 0).frames =
       [{ ftype := "error",
          errMessage := some "Bedrock agent IDs not configured",
          agentFramework := .str "BedrockAgent" }] ++
       [{ ftype := "error", requestId := some "ur",
          status := some "COMPLETED",
          safetyCheckResponse := some ("Error in performing safety check::" ++ "boom"),
          agentFramework := requestedFramework [] }] ∧
     (lambda_handler strandsOkGateway []
        { requestContext := some
            { routeKey := some "$default", connectionId := some "C7x",
              hasDomainStage := true },
          body := .nonDict } 0).1.resp.statusCode = 500 ∧
     (lambda_handler strandsOkGateway []
        { requestContext := some
            { routeKey := some "$default", connectionId := some "C7x",
              hasDomainStage := true },
          body := .nonDict } 0).1.resp.body =
       "Internal server error: " ++ "AttributeError: object has no attribute get") :=
  ⟨rfl, rfl,
   c5_exceptions_contained _ "C7x" [] 0 "boom" _ ["bedrock"] strandsOkGateway []
     _ 0 _ rfl rfl⟩

/-- C6: `send_to_client` never returns exceptionally: a successful push, a
non-gone delivery error, and a gone connection with a failing registry
delete all leave the registry unchanged and return normally, and a gone
connection with a working registry removes that connectionId from the
registry, which afterwards no longer contains it. -/
theorem c6_notifier_swallows (del : Bool) (e : String) (reg : List String)
    (cid : String) (f : Frame) :
    send_to_client ⟨.ok, del⟩ reg cid f = .ok reg ∧
    send_to_client ⟨.err e, del⟩ reg cid f = .ok reg ∧
    send_to_client ⟨.gone, true⟩ reg cid f = .ok reg ∧
    send_to_client ⟨.gone, false⟩ reg cid f = .ok (reg.filter (· ≠ cid)) ∧
    cid ∉ reg.filter (· ≠ cid) := by
  refine ⟨rfl, rfl, rfl, rfl, ?_⟩
  intro hmem
  have := List.of_mem_filter hmem
  simp at this

/-- C8: connect and disconnect events are acknowledged with success even
when the registry operation fails, and after a disconnect whose delete
executes, no registry entry exists for that connectionId regardless of
prior contents. -/
theorem c8_lifecycle_acks_and_idempotent_delete (reg : List String) (c : String) :
    (handle_connect false reg c).1.statusCode = 200 ∧
    (handle_connect false reg c).1.body = "Connected" ∧
    (handle_connect true reg c).1.statusCode = 200 ∧
    (handle_connect true reg c).1.body = "Connected" ∧
    (handle_disconnect false reg c).1.statusCode = 200 ∧
    (handle_disconnect false reg c).1.body = "Disconnected" ∧
    (handle_disconnect true reg c).1.statusCode = 200 ∧
    (handle_disconnect true reg c).1.body = "Disconnected" ∧
    c ∉ (handle_disconnect false reg c).2 := by
  refine ⟨rfl, rfl, rfl, rfl, rfl, rfl, rfl, rfl, ?_⟩
  show c ∉ reg.filter (· ≠ c)
  intro hmem
  have := List.of_mem_filter hmem
  simp at this

/-- C9 counterexample: for the unrecognized `agentFramework` value
`"NotARealFramework"`, Variant A (the Bedrock strategy) serves the
request, but the terminal frame carries `"NotARealFramework"` — it does
not identify Variant A as the serving backend. -/
theorem c9_counterexample :
    (lambda_handler strandsOkGateway [] unrecognizedSelectEvent 0).1.strategyCalls =
      ["bedrock"] ∧
    ((lambda_handler strandsOkGateway [] unrecognizedSelectEvent 0).1.frames.map
        fun f => (f.ftype, frameworkName f.agentFramework)) =
      [("final", some "NotARealFramework")] ∧
    ¬ ((lambda_handler strandsOkGateway [] unrecognizedSelectEvent 0).1.frames.map
        fun f => (f.ftype, frameworkName f.agentFramework)) =
      [("final", some "BedrockAgent")] :=
  ⟨by decide, by decide, by decide⟩

/-- C9 amended: backend selection defaults to Variant A (Bedrock) whenever
the `agentFramework` field is unspecified or holds any value other than
`"StrandsSDK"`, and the terminal frame echoes the requested field value
verbatim: it identifies Variant A only in the unspecified case (where the
default string `"BedrockAgent"` is echoed), while for an unrecognized
value the frame carries that unrecognized value although Variant A served
the request. -/
theorem c9_amended_default_routing (env : GatewayEnv) (reg : List String)
    (cid : String) (m : List (String × Json)) (clk : Nat) (t : Json)
    (hhb : isHeartbeat m = false)
    (htok : jGet m "token" = some t) (htr : jTruthy t = true)
    (hval : env.tokenValid t = true)
    (hfault : env.dispatch.fault = none) :
    (∀ v, jGet m "agentFramework" = some v → v ≠ Json.str "StrandsSDK" →
      (lambda_handler env reg
          { requestContext := some
              { routeKey := some "$default", connectionId := some cid,
                hasDomainStage := true },
            body := .dict m } clk).1.strategyCalls = ["bedrock"] ∧
      ∃ f, (lambda_handler env reg
          { requestContext := some
              { routeKey := some "$default", connectionId := some cid,
                hasDomainStage := true },
            body := .dict m } clk).1.frames.getLast? = some f ∧
        f.ftype = "final" ∧ f.agentFramework = v) ∧
    (jGet m "agentFramework" = none →
      (lambda_handler env reg
          { requestContext := some
              { routeKey := some "$default", connectionId := some cid,
                hasDomainStage := true },
            body := .dict m } clk).1.strategyCalls = ["bedrock"] ∧
      ∃ f, (lambda_handler env reg
          { requestContext := some
              { routeKey := some "$default", connectionId := some cid,
                hasDomainStage := true },
            body := .dict m } clk).1.frames.getLast? = some f ∧
        f.ftype = "final" ∧ f.agentFramework = Json.str "BedrockAgent") := by
  have hred : (lambda_handler env reg
      { requestContext := some
          { routeKey := some "$default", connectionId := some cid,
            hasDomainStage := true },
        body := .dict m } clk).1 = handle_message env.dispatch cid m clk := by
    unfold lambda_handler lambda_handler_try
    simp [hhb, htok, htr, hval]
  constructor
  · intro v hv hne
    have hws : wantsStrands m = false := by
      unfold wantsStrands
      rw [hv]
      cases v with
      | str s =>
        have hs : s ≠ "StrandsSDK" := fun h => hne (by rw [h])
        simp [hs]
      | num n => rfl
      | bool b => rfl
      | null => rfl
      | arr xs => rfl
      | obj fs => rfl
    rw [hred]
    unfold handle_message handle_message_try
    rw [hfault]
    constructor
    · show [(strategyStep env.dispatch cid m clk).2.2.2] = ["bedrock"]
      rw [strategyStep_bedrock _ _ _ _ hws]
    · refine ⟨dispatchFinalFrame env.dispatch cid m clk, ?_, rfl, ?_⟩
      · exact List.getLast?_concat _
      · show requestedFramework m = v
        unfold requestedFramework
        rw [hv]
        rfl
  · intro hv
    have hws : wantsStrands m = false := by
      unfold wantsStrands; rw [hv]
    rw [hred]
    unfold handle_message handle_message_try
    rw [hfault]
    constructor
    · show [(strategyStep env.dispatch cid m clk).2.2.2] = ["bedrock"]
      rw [strategyStep_bedrock _ _ _ _ hws]
    · refine ⟨dispatchFinalFrame env.dispatch cid m clk, ?_, rfl, ?_⟩
      · exact List.getLast?_concat _
      · show requestedFramework m = Json.str "BedrockAgent"
        unfold requestedFramework
        rw [hv]
        rfl

/-- C9 amended witness: unrecognized value `"Custom"` routes to Variant A
and the terminal frame echoes `"Custom"`. -/
theorem c9_witness :
    isHeartbeat [("token", Json.str "T"), ("agentFramework", Json.str "Custom")] = false ∧
    jGet [("token", Json.str "T"), ("agentFramework", Json.str "Custom")] "token" =
      some (Json.str "T") ∧
    jTruthy (Json.str "T") = true ∧
    strandsOkGateway.tokenValid (Json.str "T") = true ∧
    strandsOkGateway.dispatch.fault = none ∧
    ((∀ v, jGet [("token", Json.str "T"), ("agentFramework", Json.str "Custom")]
          "agentFramework" = some v → v ≠ Json.str "StrandsSDK" →
        (lambda_handler strandsOkGateway []
            { requestContext := some
                { routeKey := some "$default", connectionId := some "Cw",
                  hasDomainStage := true },
              body := .dict [("token", Json.str "T"),
                             ("agentFramework", Json.str "Custom")] } 0).1.strategyCalls =
          ["bedrock"] ∧
        ∃ f, (lambda_handler strandsOkGateway []
            { requestContext := some
                { routeKey := some "$default", connectionId := some "Cw",
                  hasDomainStage := true },
              body := .dict [("token", Json.str "T"),
                             ("agentFramework", Json.str "Custom")] } 0).1.frames.getLast? =
            some f ∧ f.ftype = "final" ∧ f.agentFramework = v) ∧
      (jGet [("token", Json.str "T"), ("agentFramework", Json.str "Custom")]
          "agentFramework" = none →
        (lambda_handler strandsOkGateway []
            { requestContext := some
                { routeKey := some "$default", connectionId := some "Cw",
                  hasDomainStage := true },
              body := .dict [("token", Json.str "T"),
                             ("agentFramework", Json.str "Custom")] } 0).1.strategyCalls =
          ["bedrock"] ∧
        ∃ f, (lambda_handler strandsOkGateway []
            { requestContext := some
                { routeKey := some "$default", connectionId := some "Cw",
                  hasDomainStage := true },
              body := .dict [("token", Json.str "T"),
                             ("agentFramework", Json.str "Custom")] } 0).1.frames.getLast? =
            some f ∧ f.ftype = "final" ∧
          f.agentFramework = Json.str "BedrockAgent")) :=
  ⟨rfl, rfl, rfl, rfl, rfl,
   c9_amended_default_routing strandsOkGateway [] "Cw"
     [("token", Json.str "T"), ("agentFramework", Json.str "Custom")] 0
     (Json.str "T") rfl rfl rfl rfl rfl⟩

/-- C10: when a processed request persists a work-order update, the
`safetyCheckPerformedAt` written to the store and the one carried in the
dispatcher's final frame are the same single timestamp, captured once
after the invocation strategy returned. -/
theorem c10_single_timestamp (env : DispatchEnv) (cid : String)
    (m : List (String × Json)) (clk : Nat) (w : List (String × Json))
    (id : Json)
    (hfault : env.fault = none)
    (hconf : env.workOrdersConfigured = true)
    (hupd : env.updateFails = false)
    (hw : jGet m "workOrderDetails" = some (.obj w))
    (hid : jGet w "work_order_id" = some id)
    (htr : jTruthy id = true) :
    ∃ t, ((handle_message env cid m clk).writes.map
            StoreWrite.safetyCheckPerformedAt) = [t] ∧
         ((handle_message env cid m clk).writes.map StoreWrite.workOrderId) = [id] ∧
         ((handle_message env cid m clk).frames.getLast?.map
            fun f => (f.ftype, f.safetyCheckPerformedAt)) = some ("final", some t) := by
  unfold handle_message handle_message_try
  rw [hfault]
  refine ⟨(strategyStep env cid m clk).2.2.1, ?_, ?_, ?_⟩
  · show ((persistStep env m (strategyStep env cid m clk).1
      (strategyStep env cid m clk).2.2.1).map StoreWrite.safetyCheckPerformedAt) = _
    simp [persistStep, hconf, hw, hid, htr, hupd]
  · show ((persistStep env m (strategyStep env cid m clk).1
      (strategyStep env cid m clk).2.2.1).map StoreWrite.workOrderId) = _
    simp [persistStep, hconf, hw, hid, htr, hupd]
  · show (((strategyStep env cid m clk).2.1 ++
      [dispatchFinalFrame env cid m clk]).getLast?.map
        fun f => (f.ftype, f.safetyCheckPerformedAt)) = _
    rw [List.getLast?_concat]
    rfl

/-- C10 witness at a concrete work order through the Bedrock path. -/
theorem c10_witness :
    strandsOkGateway.dispatch.fault = none ∧
    ({ bedrock := { configured := true, result := .ok [⟨some (some "<div>r</div>"), none⟩] },
       strands := { outcome := .ok [] },
       workOrdersConfigured := true, updateFails := false,
       uuidSession := "us", uuidRequest := "ur",
       fault := none } : DispatchEnv).workOrdersConfigured = true ∧
    (∃ t,
      ((handle_message
        { bedrock := { configured := true, result := .ok [⟨some (some "<div>r</div>"), none⟩] },
          strands := { outcome := .ok [] },
          workOrdersConfigured := true, updateFails := false,
          uuidSession := "us", uuidRequest := "ur", fault := none }
        "Cw" [("workOrderDetails", Json.obj [("work_order_id", Json.str "WO1")])]
        0).writes.map StoreWrite.safetyCheckPerformedAt) = [t] ∧
      ((handle_message
        { bedrock := { configured := true, result := .ok [⟨some (some "<div>r</div>"), none⟩] },
          strands := { outcome := .ok [] },
          workOrdersConfigured := true, updateFails := false,
          uuidSession := "us", uuidRequest := "ur", fault := none }
        "Cw" [("workOrderDetails", Json.obj [("work_order_id", Json.str "WO1")])]
        0).writes.map StoreWrite.workOrderId) = [Json.str "WO1"] ∧
      ((handle_message
        { bedrock := { configured := true, result := .ok [⟨some (some "<div>r</div>"), none⟩] },
          strands := { outcome := .ok [] },
          workOrdersConfigured := true, updateFails := false,
          uuidSession := "us", uuidRequest := "ur", fault := none }
        "Cw" [("workOrderDetails", Json.obj [("work_order_id", Json.str "WO1")])]
        0).frames.getLast?.map
          fun f => (f.ftype, f.safetyCheckPerformedAt)) = some ("final", some t)) :=
  ⟨rfl, rfl,
   c10_single_timestamp _ "Cw"
     [("workOrderDetails", Json.obj [("work_order_id", Json.str "WO1")])] 0
     [("work_order_id", Json.str "WO1")] (Json.str "WO1")
     rfl rfl rfl rfl rfl rfl⟩

/-! ## HTML cleaner: basic step identities -/

theorem removeLitN_id (l : List Char) (h : hasLitN l = false) : removeLitN l = l := by
  induction l using removeLitN.induct with
  | case1 rest ih => simp [hasLitN] at h
  | case2 c rest hne ih =>
    have he1 : removeLitN (c :: rest) = c :: removeLitN rest := by
      rw [removeLitN]
      exact hne
    have he2 : hasLitN (c :: rest) = hasLitN rest := by
      rw [hasLitN]
      exact hne
    rw [he1, ih (he2 ▸ h)]
  | case3 => rfl

theorem replaceChar_id (a b : Char) (l : List Char) (h : a ∉ l) :
    replaceChar a b l = l := by
  unfold replaceChar
  have hc : ∀ c ∈ l, (if c = a then b else c) = c := by
    intro c hmem
    have hne : ¬ (c = a) := fun hca => h (hca ▸ hmem)
    exact if_neg hne
  rw [List.map_congr_left hc]
  simp

theorem removeChar_id (a : Char) (l : List Char) (h : a ∉ l) :
    removeChar a l = l := by
  unfold removeChar
  rw [List.filter_eq_self]
  intro c hmem
  simp only [decide_eq_true_eq]
  exact fun hca => h (hca ▸ hmem)

theorem wsOnly_not_mem (l : List Char) (hws : wsOnlySpace l = true) (c : Char)
    (hc : isPyWs c = true) (hne : c ≠ ' ') : c ∉ l := by
  intro hmem
  unfold wsOnlySpace at hws
  rw [List.all_eq_true] at hws
  have := hws c hmem
  rw [hc] at this
  simp at this
  exact hne this

theorem lastP_cons_cons (p : Char → Bool) (a d : Char) (t : List Char) :
    lastP p (a :: d :: t) = lastP p (d :: t) := rfl

theorem rstripP_id (p : Char → Bool) (l : List Char) (h : lastP p l = false) :
    rstripP p l = l := by
  induction l with
  | nil => rfl
  | cons c rest ih =>
    cases rest with
    | nil =>
      have hp : p c = false := h
      simp [rstripP, hp]
    | cons d t =>
      have h2 : lastP p (d :: t) = false := h
      have hr := ih h2
      show (if (rstripP p (d :: t)).isEmpty && p c then [] else c :: rstripP p (d :: t)) =
        c :: d :: t
      rw [hr]
      simp

theorem dropWhile_id (p : Char → Bool) (l : List Char) (h : headP p l = false) :
    l.dropWhile p = l := by
  cases l with
  | nil => rfl
  | cons c rest =>
    have hp : p c = false := h
    simp [List.dropWhile_cons, hp]

theorem stripP_id (p : Char → Bool) (l : List Char)
    (hh : headP p l = false) (hl : lastP p l = false) : stripP p l = l := by
  unfold stripP lstripP
  rw [rstripP_id p l hl]
  exact dropWhile_id p l hh

theorem isPrefixOf_iff (pat l : List Char) :
    pat.isPrefixOf l = true ↔ ∃ t, l = pat ++ t := by
  induction pat generalizing l with
  | nil => simp [List.isPrefixOf]
  | cons a as ih =>
    cases l with
    | nil => simp [List.isPrefixOf]
    | cons b bs =>
      simp only [List.isPrefixOf, Bool.and_eq_true, beq_iff_eq, ih, List.cons_append,
        List.cons.injEq]
      constructor
      · rintro ⟨rfl, t, rfl⟩
        exact ⟨t, rfl, rfl⟩
      · rintro ⟨t, rfl, rfl⟩
        exact ⟨rfl, t, rfl⟩

/-! ## Whitespace collapsing: identities and canonical-output facts -/

theorem wsOnly_tail (c : Char) (rest : List Char)
    (h : wsOnlySpace (c :: rest) = true) : wsOnlySpace rest = true := by
  simp only [wsOnlySpace, List.all_cons, Bool.and_eq_true] at h
  exact h.2

theorem wsOnly_head (c : Char) (rest : List Char)
    (h : wsOnlySpace (c :: rest) = true) (hc : isPyWs c = true) : c = ' ' := by
  simp only [wsOnlySpace, List.all_cons, Bool.and_eq_true, hc] at h
  simpa using h.1

theorem noAdj_tail (c : Char) (rest : List Char)
    (h : noAdjWs (c :: rest) = true) : noAdjWs rest = true := by
  cases rest with
  | nil => rfl
  | cons d t =>
    have h2 : ((!(isPyWs c && isPyWs d)) && noAdjWs (d :: t)) = true := h
    simp only [Bool.and_eq_true] at h2
    exact h2.2

theorem noAdj_pair (c d : Char) (t : List Char)
    (h : noAdjWs (c :: d :: t) = true) (hc : isPyWs c = true) :
    isPyWs d = false := by
  have h2 : ((!(isPyWs c && isPyWs d)) && noAdjWs (d :: t)) = true := h
  simp only [Bool.and_eq_true] at h2
  have h1 := h2.1
  rw [hc] at h1
  simpa using h1

theorem noAdjWs_cons_of_not_ws (a : Char) (t : List Char)
    (ha : isPyWs a = false) (ht : noAdjWs t = true) : noAdjWs (a :: t) = true := by
  cases t with
  | nil => rfl
  | cons b r =>
    show ((!(isPyWs a && isPyWs b)) && noAdjWs (b :: r)) = true
    rw [ha, ht]
    rfl

theorem noAdjWs_cons_of_head_not (a b : Char) (r : List Char)
    (hb : isPyWs b = false) (ht : noAdjWs (b :: r) = true) :
    noAdjWs (a :: b :: r) = true := by
  show ((!(isPyWs a && isPyWs b)) && noAdjWs (b :: r)) = true
  rw [hb, ht]
  simp

theorem lastP_cons_ne (p : Char → Bool) (a : Char) (t : List Char) (ht : t ≠ []) :
    lastP p (a :: t) = lastP p t := by
  cases t with
  | nil => exact absurd rfl ht
  | cons d r => rfl

theorem squeezeGo_id (pend : Bool) (l : List Char) :
    wsOnlySpace l = true → noAdjWs l = true → lastP isPyWs l = false →
    ((pend = false → squeezeGo false l = l) ∧
     (pend = true → headNotWs l = true → l ≠ [] → squeezeGo true l = ' ' :: l)) := by
  induction pend, l using squeezeGo.induct with
  | case1 pend =>
    intro _ _ _
    exact ⟨fun _ => rfl, fun _ _ h => absurd rfl h⟩
  | case2 pend c rest hc ih =>
    intro hws hadj hlast
    have hrne : rest ≠ [] := by
      intro he
      subst he
      have h1 : isPyWs c = false := hlast
      rw [hc] at h1
      cases h1
    have hlast2 : lastP isPyWs rest = false := by
      rw [← lastP_cons_ne isPyWs c rest hrne]
      exact hlast
    have hhead2 : headNotWs rest = true := by
      cases rest with
      | nil => exact absurd rfl hrne
      | cons d t =>
        show (!isPyWs d) = true
        rw [noAdj_pair c d t hadj hc]
        rfl
    have hsp := wsOnly_head c rest hws hc
    have ihr := ih (wsOnly_tail c rest hws) (noAdj_tail c rest hadj) hlast2
    have hgt : squeezeGo true rest = ' ' :: rest := ihr.2 rfl hhead2 hrne
    constructor
    · intro _
      have hstep : squeezeGo false (c :: rest) = squeezeGo true rest := by
        simp [squeezeGo, hc]
      rw [hstep, hgt, hsp]
    · intro _ hh _
      rw [show headNotWs (c :: rest) = !isPyWs c from rfl, hc] at hh
      cases hh
  | case3 c rest hc ih =>
    intro hws hadj hlast
    have hlast2 : lastP isPyWs rest = false := by
      cases rest with
      | nil => rfl
      | cons d t =>
        rw [← lastP_cons_ne isPyWs c (d :: t) (by simp)]
        exact hlast
    have ihr := ih (wsOnly_tail c rest hws) (noAdj_tail c rest hadj) hlast2
    have hgf : squeezeGo false rest = rest := ihr.1 rfl
    constructor
    · intro hpf
      cases hpf
    · intro _ _ _
      simp [squeezeGo, hc, hgf]
  | case4 pend c rest hc hp ih =>
    intro hws hadj hlast
    have hlast2 : lastP isPyWs rest = false := by
      cases rest with
      | nil => rfl
      | cons d t =>
        rw [← lastP_cons_ne isPyWs c (d :: t) (by simp)]
        exact hlast
    have ihr := ih (wsOnly_tail c rest hws) (noAdj_tail c rest hadj) hlast2
    have hgf : squeezeGo false rest = rest := ihr.1 rfl
    constructor
    · intro _
      simp [squeezeGo, hc, hgf]
    · intro hpf
      exact absurd hpf hp

theorem collapseWs_id (l : List Char) (hws : wsOnlySpace l = true)
    (hadj : noAdjWs l = true) (hhead : headNotWs l = true)
    (hlast : lastP isPyWs l = false) : collapseWs l = l := by
  unfold collapseWs
  have hp : headP isPyWs l = false := by
    cases l with
    | nil => rfl
    | cons c t =>
      have h1 : (!isPyWs c) = true := hhead
      simpa using h1
  rw [dropWhile_id isPyWs l hp]
  exact (squeezeGo_id false l hws hadj hlast).1 rfl

theorem wsOnly_cons_iff (a : Char) (t : List Char) :
    wsOnlySpace (a :: t) = true ↔
      ((!isPyWs a || a = ' ') = true ∧ wsOnlySpace t = true) := by
  unfold wsOnlySpace
  rw [List.all_cons, Bool.and_eq_true]

theorem squeezeGo_wsOnly (pend : Bool) (l : List Char) :
    wsOnlySpace (squeezeGo pend l) = true := by
  induction pend, l using squeezeGo.induct with
  | case1 _ => rfl
  | case2 pend c rest hc ih =>
    have hstep : squeezeGo pend (c :: rest) = squeezeGo true rest := by
      simp [squeezeGo, hc]
    rw [hstep]
    exact ih
  | case3 c rest hc ih =>
    have hstep : squeezeGo true (c :: rest) = ' ' :: c :: squeezeGo false rest := by
      simp [squeezeGo, hc]
    rw [hstep]
    rw [wsOnly_cons_iff, wsOnly_cons_iff]
    refine ⟨by simp, ?_, ih⟩
    simp only [hc]
    simp at hc
    simp [hc]
  | case4 pend c rest hc hp ih =>
    have hstep : squeezeGo pend (c :: rest) = c :: squeezeGo false rest := by
      have hpf : pend = false := by
        cases pend with
        | false => rfl
        | true => exact absurd rfl hp
      simp [squeezeGo, hc, hpf]
    rw [hstep]
    rw [wsOnly_cons_iff]
    refine ⟨?_, ih⟩
    simp at hc
    simp [hc]

theorem squeezeGo_noAdj (pend : Bool) (l : List Char) :
    noAdjWs (squeezeGo pend l) = true := by
  induction pend, l using squeezeGo.induct with
  | case1 _ => rfl
  | case2 pend c rest hc ih =>
    have hstep : squeezeGo pend (c :: rest) = squeezeGo true rest := by
      simp [squeezeGo, hc]
    rw [hstep]
    exact ih
  | case3 c rest hc ih =>
    have hstep : squeezeGo true (c :: rest) = ' ' :: c :: squeezeGo false rest := by
      simp [squeezeGo, hc]
    rw [hstep]
    have hcf : isPyWs c = false := by simpa using hc
    apply noAdjWs_cons_of_head_not ' ' c _ hcf
    exact noAdjWs_cons_of_not_ws c _ hcf ih
  | case4 pend c rest hc hp ih =>
    have hpf : pend = false := by
      cases pend with
      | false => rfl
      | true => exact absurd rfl hp
    have hstep : squeezeGo pend (c :: rest) = c :: squeezeGo false rest := by
      simp [squeezeGo, hc, hpf]
    rw [hstep]
    have hcf : isPyWs c = false := by simpa using hc
    exact noAdjWs_cons_of_not_ws c _ hcf ih

theorem squeezeGo_lastP (pend : Bool) (l : List Char) :
    lastP isPyWs (squeezeGo pend l) = false := by
  induction pend, l using squeezeGo.induct with
  | case1 _ => rfl
  | case2 pend c rest hc ih =>
    have hstep : squeezeGo pend (c :: rest) = squeezeGo true rest := by
      simp [squeezeGo, hc]
    rw [hstep]
    exact ih
  | case3 c rest hc ih =>
    have hstep : squeezeGo true (c :: rest) = ' ' :: c :: squeezeGo false rest := by
      simp [squeezeGo, hc]
    rw [hstep]
    have hcf : isPyWs c = false := by simpa using hc
    cases hout : squeezeGo false rest with
    | nil =>
      show lastP isPyWs [' ', c] = false
      show isPyWs c = false
      exact hcf
    | cons d t =>
      rw [lastP_cons_ne isPyWs ' ' (c :: d :: t) (by simp),
          lastP_cons_ne isPyWs c (d :: t) (by simp)]
      rw [← hout]
      exact ih
  | case4 pend c rest hc hp ih =>
    have hpf : pend = false := by
      cases pend with
      | false => rfl
      | true => exact absurd rfl hp
    have hstep : squeezeGo pend (c :: rest) = c :: squeezeGo false rest := by
      simp [squeezeGo, hc, hpf]
    rw [hstep]
    have hcf : isPyWs c = false := by simpa using hc
    cases hout : squeezeGo false rest with
    | nil =>
      show isPyWs c = false
      exact hcf
    | cons d t =>
      rw [lastP_cons_ne isPyWs c (d :: t) (by simp), ← hout]
      exact ih

theorem squeezeGo_false_head (l : List Char) (hp : headP isPyWs l = false) :
    headNotWs (squeezeGo false l) = true := by
  cases l with
  | nil => rfl
  | cons c rest =>
    have hcf : isPyWs c = false := hp
    have hstep : squeezeGo false (c :: rest) = c :: squeezeGo false rest := by
      simp [squeezeGo, hcf]
    rw [hstep]
    show (!isPyWs c) = true
    rw [hcf]
    rfl

theorem headP_dropWhile (p : Char → Bool) (l : List Char) :
    headP p (l.dropWhile p) = false := by
  induction l with
  | nil => rfl
  | cons c rest ih =>
    rw [List.dropWhile_cons]
    by_cases hc : p c = true
    · simp only [hc, if_true]
      exact ih
    · have hcf : p c = false := by simpa using hc
      simp only [hcf]
      simp only [Bool.false_eq_true, if_false]
      exact hcf

theorem collapseWs_props (l : List Char) :
    wsOnlySpace (collapseWs l) = true ∧ noAdjWs (collapseWs l) = true ∧
    headNotWs (collapseWs l) = true ∧ lastP isPyWs (collapseWs l) = false := by
  refine ⟨squeezeGo_wsOnly false _, squeezeGo_noAdj false _, ?_, squeezeGo_lastP false _⟩
  exact squeezeGo_false_head _ (headP_dropWhile isPyWs l)

/-! ## Substring occurrences and the minimum start index -/

/-- `pat` occurs in `l` at some position. -/
def occursIn (pat l : List Char) : Prop :=
  ∃ i, pat.isPrefixOf (l.drop i) = true

theorem findSubFrom_eq_none_iff (pat l : List Char) :
    findSubFrom pat l = none ↔ ¬ occursIn pat l := by
  induction l with
  | nil =>
    unfold findSubFrom occursIn
    cases hp : pat.isEmpty with
    | true =>
      rw [if_pos rfl]
      constructor
      · intro h; cases h
      · intro h
        refine absurd ⟨0, ?_⟩ h
        cases pat with
        | nil => rfl
        | cons a t => cases hp
    | false =>
      rw [if_neg (by simp)]
      constructor
      · intro _ hocc
        obtain ⟨i, hi⟩ := hocc
        rw [List.drop_nil] at hi
        cases pat with
        | nil => cases hp
        | cons a t => cases hi
      · intro _
        rfl
  | cons c rest ih =>
    unfold findSubFrom
    cases hp : pat.isPrefixOf (c :: rest) with
    | true =>
      rw [if_pos rfl]
      constructor
      · intro h; cases h
      · intro h
        exact absurd ⟨0, hp⟩ h
    | false =>
      rw [if_neg (by simp)]
      constructor
      · intro h hocc
        obtain ⟨i, hi⟩ := hocc
        cases i with
        | zero => rw [List.drop_zero] at hi; rw [hi] at hp; cases hp
        | succ j =>
          have hnone : findSubFrom pat rest = none := by
            cases hf : findSubFrom pat rest with
            | none => rfl
            | some k => rw [hf] at h; cases h
          exact (ih.mp hnone) ⟨j, hi⟩
      · intro h
        have hnone : findSubFrom pat rest = none :=
          ih.mpr fun hocc => by
            obtain ⟨j, hj⟩ := hocc
            exact h ⟨j + 1, hj⟩
        rw [hnone]
        rfl

theorem findSubFrom_zero (pat l : List Char) (h : pat.isPrefixOf l = true) :
    findSubFrom pat l = some 0 := by
  cases l with
  | nil =>
    have hp : pat.isEmpty = true := by
      cases pat with
      | nil => rfl
      | cons a t => cases h
    unfold findSubFrom
    rw [if_pos hp]
  | cons c rest =>
    unfold findSubFrom
    rw [if_pos h]


theorem findSubFrom_some_pre (pat l : List Char) (i : Nat)
    (h : findSubFrom pat l = some i) : pat.isPrefixOf (l.drop i) = true := by
  induction l generalizing i with
  | nil =>
    unfold findSubFrom at h
    cases hp : pat.isEmpty with
    | true =>
      rw [if_pos hp] at h
      have hi : i = 0 := by simpa using h.symm
      subst hi
      cases pat with
      | nil => rfl
      | cons a t => cases hp
    | false =>
      rw [if_neg (by simp [hp])] at h
      cases h
  | cons c rest ih =>
    unfold findSubFrom at h
    cases hp : pat.isPrefixOf (c :: rest) with
    | true =>
      rw [if_pos hp] at h
      have hi : i = 0 := by simpa using h.symm
      subst hi
      exact hp
    | false =>
      rw [if_neg (by simp [hp])] at h
      cases hf : findSubFrom pat rest with
      | none => rw [hf] at h; cases h
      | some j =>
        rw [hf] at h
        have hij : j + 1 = i := by simpa using h
        subst hij
        exact ih j hf

theorem optMin_assoc (a b c : Option Nat) :
    optMin (optMin a b) c = optMin a (optMin b c) := by
  cases a <;> cases b <;> cases c <;> simp [optMin, Nat.min_assoc]

theorem foldl_optMin_shift (l : List Char) (pats : List (List Char))
    (acc : Option Nat) :
    pats.foldl (fun acc pat => optMin acc (findSubFrom pat l)) acc =
      optMin acc (pats.foldl (fun acc pat => optMin acc (findSubFrom pat l)) none) := by
  induction pats generalizing acc with
  | nil => cases acc <;> rfl
  | cons p ps ih =>
    rw [List.foldl_cons, List.foldl_cons, ih, ih (optMin none (findSubFrom p l)),
        ← optMin_assoc]
    rfl

theorem minStart_some_exists (l : List Char) (i : Nat)
    (h : minStart l = some i) :
    ∃ pat ∈ htmlStartPats, findSubFrom pat l = some i := by
  unfold minStart at h
  have main : ∀ (pats : List (List Char)) (acc : Option Nat),
      pats.foldl (fun acc pat => optMin acc (findSubFrom pat l)) acc = some i →
      acc = some i ∨ ∃ pat ∈ pats, findSubFrom pat l = some i := by
    intro pats
    induction pats with
    | nil => intro acc h2; exact Or.inl h2
    | cons p ps ih =>
      intro acc h2
      rw [List.foldl_cons] at h2
      rcases ih _ h2 with h3 | ⟨pat, hmem, hpat⟩
      · cases hacc : acc with
        | none =>
          rw [hacc] at h3
          cases hf : findSubFrom p l with
          | none =>
            rw [hf] at h3
            simp [optMin] at h3
          | some j =>
            rw [hf] at h3
            have hj2 : j = i := by simpa [optMin] using h3
            exact Or.inr ⟨p, List.mem_cons_self p ps, by rw [hf, hj2]⟩
        | some a =>
          rw [hacc] at h3
          cases hf : findSubFrom p l with
          | none =>
            rw [hf] at h3
            have ha2 : a = i := by simpa [optMin] using h3
            exact Or.inl (by rw [ha2])
          | some j =>
            rw [hf] at h3
            have hmin2 : min a j = i := by simpa [optMin] using h3
            have hcase : i = a ∨ i = j := by
              rcases Nat.le_total a j with hle | hle
              · left; rw [← hmin2, Nat.min_eq_left hle]
              · right; rw [← hmin2, Nat.min_eq_right hle]
            rcases hcase with h5 | h5
            · exact Or.inl (by rw [h5])
            · exact Or.inr ⟨p, List.mem_cons_self p ps, by rw [hf, h5]⟩
      · exact Or.inr ⟨pat, List.mem_cons_of_mem p hmem, hpat⟩
  rcases main htmlStartPats none h with h2 | h2
  · cases h2
  · exact h2

theorem foldl_optMin_le (l : List Char) (ps : List (List Char)) :
    ∀ (acc : Option Nat) (a : Nat), acc = some a →
      ∃ i, ps.foldl (fun acc pat => optMin acc (findSubFrom pat l)) acc = some i ∧
        i ≤ a := by
  induction ps with
  | nil =>
    intro acc a h
    exact ⟨a, by rw [List.foldl_nil, h], Nat.le_refl a⟩
  | cons p ps ih =>
    intro acc a h
    rw [List.foldl_cons]
    cases hf : findSubFrom p l with
    | none =>
      refine ih _ a ?_
      simp [h, hf, optMin]
    | some j =>
      obtain ⟨i, hi, hle⟩ := ih (optMin acc (findSubFrom p l)) (min a j)
        (by simp [h, hf, optMin])
      rw [hf] at hi
      exact ⟨i, hi, Nat.le_trans hle (Nat.min_le_left a j)⟩

theorem minStart_le (l : List Char) (pat : List Char) (j : Nat)
    (hmem : pat ∈ htmlStartPats) (hf : findSubFrom pat l = some j) :
    ∃ i, minStart l = some i ∧ i ≤ j := by
  unfold minStart
  have main : ∀ (pats : List (List Char)) (acc : Option Nat), pat ∈ pats →
      ∃ i, pats.foldl (fun acc pat => optMin acc (findSubFrom pat l)) acc = some i ∧
        i ≤ j := by
    intro pats
    induction pats with
    | nil => intro acc hm; cases hm
    | cons p ps ih =>
      intro acc hm
      rw [List.foldl_cons]
      rcases List.mem_cons.mp hm with rfl | hm2
      · rw [hf]
        cases hacc : acc with
        | none => exact foldl_optMin_le l ps _ j rfl
        | some b =>
          obtain ⟨i, hi, hle⟩ := foldl_optMin_le l ps (optMin (some b) (some j))
            (min b j) rfl
          exact ⟨i, hi, Nat.le_trans hle (Nat.min_le_right b j)⟩
      · exact ih _ hm2
  exact main htmlStartPats none hmem

theorem minStart_none_all (l : List Char) (h : minStart l = none) :
    ∀ pat ∈ htmlStartPats, findSubFrom pat l = none := by
  intro pat hmem
  cases hf : findSubFrom pat l with
  | none => rfl
  | some j =>
    obtain ⟨i, hi, _⟩ := minStart_le l pat j hmem hf
    rw [h] at hi
    cases hi

theorem minStart_none_intro (l : List Char)
    (h : ∀ pat ∈ htmlStartPats, findSubFrom pat l = none) :
    minStart l = none := by
  unfold minStart
  have main : ∀ (pats : List (List Char)), (∀ pat ∈ pats, findSubFrom pat l = none) →
      ∀ acc, pats.foldl (fun acc pat => optMin acc (findSubFrom pat l)) acc = acc := by
    intro pats
    induction pats with
    | nil => intro _ acc; rfl
    | cons p ps ih =>
      intro hall acc
      rw [List.foldl_cons, hall p (List.mem_cons_self p ps)]
      rw [ih (fun pat hm => hall pat (List.mem_cons_of_mem p hm))]
      cases acc <;> rfl
  exact main htmlStartPats h none

theorem noPat_iff (l : List Char) :
    noPat l = true ↔ ∀ pat ∈ htmlStartPats, findSubFrom pat l = none := by
  unfold noPat
  rw [List.all_eq_true]
  constructor
  · intro h pat hm
    have := h pat hm
    simpa [Option.isNone_iff_eq_none] using this
  · intro h pat hm
    simp [Option.isNone_iff_eq_none, h pat hm]

theorem sliceAtStart_id (l : List Char) (h : headPat l ∨ noPat l = true) :
    sliceAtStart l = l := by
  unfold sliceAtStart
  rcases h with ⟨pat, hmem, hpre⟩ | hnp
  · have h0 := findSubFrom_zero pat l hpre
    obtain ⟨i, hi, hle⟩ := minStart_le l pat 0 hmem h0
    rw [hi]
    have : i = 0 := Nat.le_zero.mp hle
    rw [this]
    rfl
  · rw [minStart_none_intro l ((noPat_iff l).mp hnp)]

theorem sliceAtStart_cases (l : List Char) :
    headPat (sliceAtStart l) ∨ noPat (sliceAtStart l) = true := by
  unfold sliceAtStart
  cases hm : minStart l with
  | none =>
    right
    exact (noPat_iff l).mpr (minStart_none_all l hm)
  | some i =>
    obtain ⟨pat, hmem, hf⟩ := minStart_some_exists l i hm
    show headPat (if 0 < i then l.drop i else l) ∨
      noPat (if 0 < i then l.drop i else l) = true
    by_cases hi : 0 < i
    · rw [if_pos hi]
      left
      exact ⟨pat, hmem, findSubFrom_some_pre pat l i hf⟩
    · rw [if_neg hi]
      left
      have hi0 : i = 0 := by omega
      subst hi0
      have := findSubFrom_some_pre pat l 0 hf
      rw [List.drop_zero] at this
      exact ⟨pat, hmem, this⟩

/-! ## Closing-tag search: index-level specifications -/

theorem drop_eq_getElem?_cons (l : List Char) (p : Nat) :
    l.drop p = match l[p]? with
      | some a => a :: l.drop (p + 1)
      | none => [] := by
  induction p generalizing l with
  | zero => cases l <;> simp
  | succ n ih =>
    cases l with
    | nil => simp
    | cons c rest => simpa using ih rest

theorem drop_eq_cons_iff (l : List Char) (p : Nat) (a : Char) (t : List Char) :
    l.drop p = a :: t ↔ l[p]? = some a ∧ t = l.drop (p + 1) := by
  constructor
  · intro h
    have h2 := drop_eq_getElem?_cons l p
    rw [h] at h2
    cases hg : l[p]? with
    | none => rw [hg] at h2; cases h2
    | some b =>
      rw [hg] at h2
      have h2b : a :: t = b :: l.drop (p + 1) := h2
      have hab : a = b := by injection h2b
      have ht : t = l.drop (p + 1) := by injection h2b
      refine ⟨?_, ht⟩
      rw [hab]
  · intro ⟨h1, h2⟩
    have h3 := drop_eq_getElem?_cons l p
    rw [h1] at h3
    rw [h3, h2]

theorem idxOfGt_some_iff (u : List Char) (j : Nat) :
    idxOfGt u = some j ↔ u[j]? = some '>' ∧ ∀ k, k < j → u[k]? ≠ some '>' := by
  induction u generalizing j with
  | nil =>
    unfold idxOfGt
    simp
  | cons c rest ih =>
    unfold idxOfGt
    by_cases hc : c = '>'
    · subst hc
      rw [if_pos rfl]
      constructor
      · intro h
        have hj : j = 0 := by simpa using h.symm
        subst hj
        exact ⟨List.getElem?_cons_zero, fun k hk => absurd hk (by omega)⟩
      · intro ⟨h1, h2⟩
        cases j with
        | zero => rfl
        | succ n =>
          exact absurd List.getElem?_cons_zero (h2 0 (by omega))
    · rw [if_neg hc]
      constructor
      · intro h
        obtain ⟨n, hn, hj⟩ : ∃ n, idxOfGt rest = some n ∧ j = n + 1 := by
          cases hf : idxOfGt rest with
          | none => rw [hf] at h; cases h
          | some n =>
            rw [hf] at h
            exact ⟨n, rfl, by simpa using h.symm⟩
        subst hj
        obtain ⟨h1, h2⟩ := (ih n).mp hn
        refine ⟨by simpa using h1, ?_⟩
        intro k hk
        cases k with
        | zero =>
          rw [List.getElem?_cons_zero]
          intro hcc
          exact hc (by simpa using hcc)
        | succ m =>
          rw [List.getElem?_cons_succ]
          exact h2 m (by omega)
      · intro ⟨h1, h2⟩
        cases j with
        | zero =>
          exfalso
          exact hc (by simpa using h1)
        | succ n =>
          have hr : idxOfGt rest = some n := by
            refine (ih n).mpr ⟨by simpa using h1, ?_⟩
            intro k hk
            have := h2 (k + 1) (by omega)
            simpa using this
          rw [hr]
          rfl

theorem tagEndAt_some_facts (s : List Char) (p e : Nat) (h : tagEndAt s p = some e) :
    s[p]? = some '<' ∧ s[p + 1]? = some '/' ∧ p + 4 ≤ e ∧ s[e - 1]? = some '>' ∧
      ∀ k, p + 2 ≤ k → k < e - 1 → s[k]? ≠ some '>' := by
  unfold tagEndAt at h
  split at h
  case h_2 => cases h
  case h_1 u heq =>
    obtain ⟨hp, hrest⟩ := (drop_eq_cons_iff s p '<' ('/' :: u)).mp heq
    obtain ⟨hp1, hu⟩ := (drop_eq_cons_iff s (p + 1) '/' u).mp hrest.symm
    cases hidx : idxOfGt u with
    | none => rw [hidx] at h; cases h
    | some j =>
      rw [hidx] at h
      have hif : (if 1 ≤ j then some (p + 3 + j) else none) = some e := h
      by_cases hj : 1 ≤ j
      · rw [if_pos hj] at hif
        have he : p + 3 + j = e := by simpa using hif
        obtain ⟨hgt, hnogt⟩ := (idxOfGt_some_iff u j).mp hidx
        subst hu
        rw [List.getElem?_drop] at hgt
        refine ⟨hp, hp1, by omega, ?_, ?_⟩
        · rw [show e - 1 = p + 2 + j by omega]
          exact hgt
        · intro k hk1 hk2
          have hne := hnogt (k - (p + 2)) (by omega)
          rw [List.getElem?_drop, show p + 2 + (k - (p + 2)) = k by omega] at hne
          exact hne
      · rw [if_neg hj] at hif
        cases hif

theorem tagEndAt_intro (s : List Char) (p e : Nat)
    (h1 : s[p]? = some '<') (h2 : s[p + 1]? = some '/') (h3 : p + 4 ≤ e)
    (h4 : s[e - 1]? = some '>')
    (h5 : ∀ k, p + 2 ≤ k → k < e - 1 → s[k]? ≠ some '>') :
    tagEndAt s p = some e := by
  have hd1 : s.drop p = '<' :: s.drop (p + 1) :=
    (drop_eq_cons_iff s p '<' _).mpr ⟨h1, rfl⟩
  have hd2 : s.drop (p + 1) = '/' :: s.drop (p + 2) :=
    (drop_eq_cons_iff s (p + 1) '/' _).mpr ⟨h2, rfl⟩
  unfold tagEndAt
  rw [hd1, hd2]
  show (match idxOfGt (s.drop (p + 2)) with
        | some j => if 1 ≤ j then some (p + 3 + j) else none
        | none => none) = some e
  have hidx : idxOfGt (s.drop (p + 2)) = some (e - 1 - (p + 2)) := by
    refine (idxOfGt_some_iff _ _).mpr ⟨?_, ?_⟩
    · rw [List.getElem?_drop, show p + 2 + (e - 1 - (p + 2)) = e - 1 by omega]
      exact h4
    · intro k hk
      rw [List.getElem?_drop]
      exact h5 (p + 2 + k) (by omega) (by omega)
  rw [hidx]
  show (if 1 ≤ e - 1 - (p + 2) then some (p + 3 + (e - 1 - (p + 2))) else none) = some e
  rw [if_pos (by omega : 1 ≤ e - 1 - (p + 2))]
  congr 1
  omega

theorem noLtFrom_iff (s : List Char) (e : Nat) :
    noLtFrom s e = true ↔ ∀ k, e ≤ k → s[k]? ≠ some '<' := by
  unfold noLtFrom
  rw [List.all_eq_true]
  constructor
  · intro h k hk hs
    have hidx : (s.drop e)[k - e]? = some '<' := by
      rw [List.getElem?_drop, show e + (k - e) = k by omega]
      exact hs
    have hmem : '<' ∈ s.drop e := by
      rw [List.mem_iff_getElem?]
      exact ⟨k - e, hidx⟩
    have := h '<' hmem
    simp at this
  · intro h c hmem
    simp only [decide_eq_true_eq]
    intro hc
    subst hc
    rw [List.mem_iff_getElem?] at hmem
    obtain ⟨n, hn⟩ := hmem
    rw [List.getElem?_drop] at hn
    exact h (e + n) (by omega) hn

theorem okAt_true_iff (s : List Char) (p : Nat) :
    okAt s p = true ↔ ∃ e, tagEndAt s p = some e ∧ noLtFrom s e = true := by
  unfold okAt
  cases ht : tagEndAt s p with
  | none =>
    constructor
    · intro h; cases h
    · intro ⟨e, he, _⟩; cases he
  | some e =>
    constructor
    · intro h; exact ⟨e, rfl, h⟩
    · intro ⟨e2, he2, hn⟩
      have : e2 = e := by
        simpa using he2.symm
      rw [← this]
      exact hn

theorem searchFrom_some (s : List Char) (fuel : Nat) :
    ∀ (p q : Nat), searchFrom s p fuel = some q →
      p ≤ q ∧ q < p + fuel ∧ okAt s q = true ∧
        ∀ r, p ≤ r → r < q → okAt s r = false := by
  induction fuel with
  | zero => intro p q h; cases h
  | succ f ih =>
    intro p q h
    unfold searchFrom at h
    cases hok : okAt s p with
    | true =>
      rw [hok] at h
      rw [if_pos rfl] at h
      have : p = q := by simpa using h
      subst this
      exact ⟨Nat.le_refl p, by omega, hok, fun r hr1 hr2 => by omega⟩
    | false =>
      rw [hok] at h
      rw [if_neg (by simp)] at h
      obtain ⟨h1, h2, h3, h4⟩ := ih (p + 1) q h
      refine ⟨by omega, by omega, h3, ?_⟩
      intro r hr1 hr2
      by_cases hrp : r = p
      · subst hrp; exact hok
      · exact h4 r (by omega) hr2

theorem searchFrom_none (s : List Char) (fuel : Nat) :
    ∀ (p : Nat), searchFrom s p fuel = none →
      ∀ r, p ≤ r → r < p + fuel → okAt s r = false := by
  induction fuel with
  | zero => intro p _ r h1 h2; omega
  | succ f ih =>
    intro p h r h1 h2
    unfold searchFrom at h
    cases hok : okAt s p with
    | true => rw [hok, if_pos rfl] at h; cases h
    | false =>
      rw [hok, if_neg (by simp)] at h
      by_cases hrp : r = p
      · subst hrp; exact hok
      · exact ih (p + 1) h r (by omega) (by omega)

theorem searchFrom_intro (s : List Char) (fuel : Nat) :
    ∀ (p q : Nat), p ≤ q → q < p + fuel → okAt s q = true →
      (∀ r, p ≤ r → r < q → okAt s r = false) →
      searchFrom s p fuel = some q := by
  induction fuel with
  | zero => intro p q h1 h2; omega
  | succ f ih =>
    intro p q h1 h2 h3 h4
    unfold searchFrom
    by_cases hpq : p = q
    · subst hpq
      rw [h3, if_pos rfl]
    · have hok : okAt s p = false := h4 p (Nat.le_refl p) (by omega)
      rw [hok, if_neg (by simp)]
      exact ih (p + 1) q (by omega) (by omega) h3 fun r hr1 hr2 => h4 r (by omega) hr2

theorem lt_length_of_getElem?_some (l : List Char) (n : Nat) (a : Char)
    (h : l[n]? = some a) : n < l.length := by
  by_contra hc
  rw [List.getElem?_eq_none (by omega)] at h
  cases h

theorem take_getElem?_some (l : List Char) (n i : Nat) (a : Char)
    (h : (l.take n)[i]? = some a) : i < n ∧ l[i]? = some a := by
  rw [List.getElem?_take] at h
  by_cases hi : i < n
  · rw [if_pos hi] at h
    exact ⟨hi, h⟩
  · rw [if_neg hi] at h
    cases h

theorem take_getElem?_of_lt (l : List Char) (n i : Nat) (hi : i < n) :
    (l.take n)[i]? = l[i]? := by
  rw [List.getElem?_take, if_pos hi]

theorem rstripP_spec (p : Char → Bool) (l : List Char) :
    ∃ n, n ≤ l.length ∧ rstripP p l = l.take n ∧
      ∀ k c, n ≤ k → l[k]? = some c → p c = true := by
  induction l with
  | nil => exact ⟨0, Nat.le_refl 0, rfl, fun k c _ h => by cases h⟩
  | cons a rest ih =>
    obtain ⟨n, hn, heq, hrem⟩ := ih
    by_cases hkill : (rstripP p rest).isEmpty = true ∧ p a = true
    · refine ⟨0, by simp, ?_, ?_⟩
      · show (if (rstripP p rest).isEmpty && p a then [] else a :: rstripP p rest) = []
        rw [hkill.1, hkill.2]
        rfl
      · intro k c _ hk
        cases k with
        | zero =>
          have : a = c := by simpa using hk
          rw [← this]
          exact hkill.2
        | succ m =>
          rw [List.getElem?_cons_succ] at hk
          have hrest_all : ∀ (j : Nat) (c2 : Char), rest[j]? = some c2 → p c2 = true := by
            intro j c2 hj
            have hre : rstripP p rest = [] := by
              cases hrl : rstripP p rest with
              | nil => rfl
              | cons x xs =>
                exfalso
                rw [hrl] at hkill
                simp at hkill
            have htake : rest.take n = [] := by rw [← heq]; exact hre
            have hj2 := lt_length_of_getElem?_some rest j c2 hj
            by_cases hn0 : n = 0
            · exact hrem j c2 (by omega) hj
            · exfalso
              have hlen := List.length_take n rest
              rw [htake] at hlen
              have hlen2 : 0 = min n rest.length := hlen
              omega
          exact hrest_all m c hk
    · refine ⟨n + 1, by simp [List.length_cons]; omega, ?_, ?_⟩
      · show (if (rstripP p rest).isEmpty && p a then [] else a :: rstripP p rest) =
          (a :: rest).take (n + 1)
        have hcond : ((rstripP p rest).isEmpty && p a) = false := by
          by_cases h1 : (rstripP p rest).isEmpty = true
          · by_cases h2 : p a = true
            · exact absurd ⟨h1, h2⟩ hkill
            · rw [h1]
              simpa using h2
          · have : (rstripP p rest).isEmpty = false := by simpa using h1
            rw [this]
            rfl
        rw [hcond]
        rw [List.take_succ_cons, heq]
        rfl
      · intro k c hkge hk
        cases k with
        | zero => omega
        | succ m =>
          rw [List.getElem?_cons_succ] at hk
          exact hrem m c (by omega) hk

theorem dropWhile_eq_drop_spec (p : Char → Bool) (l : List Char) :
    ∃ k, k ≤ l.length ∧ l.dropWhile p = l.drop k := by
  induction l with
  | nil => exact ⟨0, Nat.le_refl 0, rfl⟩
  | cons a rest ih =>
    obtain ⟨k, hk, heq⟩ := ih
    by_cases ha : p a = true
    · refine ⟨k + 1, by simpa using hk, ?_⟩
      rw [List.dropWhile_cons, if_pos ha, List.drop_succ_cons, heq]
    · refine ⟨0, by simp, ?_⟩
      rw [List.dropWhile_cons, if_neg ha, List.drop_zero]

theorem lastP_false_of_last (p : Char → Bool) (l : List Char) (c : Char)
    (h : l[l.length - 1]? = some c) (hp : p c = false) : lastP p l = false := by
  induction l with
  | nil => rfl
  | cons a rest ih =>
    cases rest with
    | nil =>
      have hac : a = c := by simpa using h
      show p a = false
      rw [hac]
      exact hp
    | cons d t =>
      rw [lastP_cons_ne p a (d :: t) (by simp)]
      apply ih
      have hlen : (a :: d :: t).length - 1 = ((d :: t).length - 1) + 1 := by
        simp [List.length_cons]
      rw [hlen, List.getElem?_cons_succ] at h
      exact h

theorem okAt_of_take (V : List Char) (e q : Nat)
    (hnl : noLtFrom V e = true)
    (hq : okAt (V.take e) q = true) : okAt V q = true := by
  obtain ⟨e2, hte2, hnl2⟩ := (okAt_true_iff _ _).mp hq
  obtain ⟨f1, f2, f3, f4, f5⟩ := tagEndAt_some_facts _ q e2 hte2
  obtain ⟨he2lt, hV4⟩ := take_getElem?_some V e (e2 - 1) '>' f4
  obtain ⟨hq_lt, hVq⟩ := take_getElem?_some V e q '<' f1
  obtain ⟨hq1_lt, hVq1⟩ := take_getElem?_some V e (q + 1) '/' f2
  refine (okAt_true_iff _ _).mpr ⟨e2, ?_, ?_⟩
  · refine tagEndAt_intro V q e2 hVq hVq1 f3 hV4 ?_
    intro k hk1 hk2
    have hk_lt : k < e := by omega
    rw [← take_getElem?_of_lt V e k hk_lt]
    exact f5 k hk1 hk2
  · rw [noLtFrom_iff]
    intro k hk
    by_cases hke : k < e
    · rw [← take_getElem?_of_lt V e k hke]
      exact (noLtFrom_iff _ _).mp hnl2 k hk
    · exact (noLtFrom_iff _ _).mp hnl k (by omega)

theorem okAt_take_self (V : List Char) (p e : Nat) (hte : tagEndAt V p = some e) :
    tagEndAt (V.take e) p = some e ∧ okAt (V.take e) p = true := by
  obtain ⟨f1, f2, f3, f4, f5⟩ := tagEndAt_some_facts V p e hte
  have hte2 : tagEndAt (V.take e) p = some e := by
    refine tagEndAt_intro _ p e ?_ ?_ f3 ?_ ?_
    · rw [take_getElem?_of_lt V e p (by omega)]
      exact f1
    · rw [take_getElem?_of_lt V e (p + 1) (by omega)]
      exact f2
    · rw [take_getElem?_of_lt V e (e - 1) (by omega)]
      exact f4
    · intro k hk1 hk2
      rw [take_getElem?_of_lt V e k (by omega)]
      exact f5 k hk1 hk2
  refine ⟨hte2, (okAt_true_iff _ _).mpr ⟨e, hte2, ?_⟩⟩
  rw [noLtFrom_iff]
  intro k hk hcontra
  have hklt := lt_length_of_getElem?_some _ k '<' hcontra
  rw [List.length_take] at hklt
  omega

theorem truncIdx_take (V : List Char) (p e : Nat)
    (hidx : truncIdx V = some p) (hte : tagEndAt V p = some e) :
    truncIdx (V.take e) = some p := by
  have hidx2 : searchFrom V 0 V.length = some p := hidx
  obtain ⟨hp0, hplt, hokp, hfirst⟩ := searchFrom_some V V.length 0 p hidx2
  obtain ⟨f1, f2, f3, f4, f5⟩ := tagEndAt_some_facts V p e hte
  have hnlV : noLtFrom V e = true := by
    obtain ⟨e2, hte2, hnl2⟩ := (okAt_true_iff _ _).mp hokp
    have he2 : e2 = e := by
      rw [hte] at hte2
      simpa using hte2.symm
    rw [← he2]
    exact hnl2
  have helen : e ≤ V.length := by
    have := lt_length_of_getElem?_some V (e - 1) '>' f4
    omega
  have hlen : (V.take e).length = e := by
    rw [List.length_take]
    omega
  show searchFrom (V.take e) 0 (V.take e).length = some p
  rw [hlen]
  refine searchFrom_intro _ e 0 p (by omega) (by omega)
    (okAt_take_self V p e hte).2 ?_
  intro r hr1 hr2
  by_contra hc
  have hok_take : okAt (V.take e) r = true := by simpa using hc
  have hokV := okAt_of_take V e r hnlV hok_take
  have hf := hfirst r (by omega) hr2
  rw [hf] at hokV
  cases hokV

theorem okAt_strip_of (V : List Char) (q : Nat)
    (hq : okAt (stripP isPyWs V) q = true) :
    ∃ q2, okAt V q2 = true := by
  obtain ⟨n, hn, hrw, hrem⟩ := rstripP_spec isPyWs V
  obtain ⟨k, hk, hdw⟩ := dropWhile_eq_drop_spec isPyWs (rstripP isPyWs V)
  have hT : stripP isPyWs V = (V.take n).drop k := by
    unfold stripP lstripP
    rw [hdw, hrw]
  have hidx : ∀ (i : Nat), (stripP isPyWs V)[i]? = (V.take n)[k + i]? := by
    intro i
    rw [hT, List.getElem?_drop]
  obtain ⟨e, hte, hnl⟩ := (okAt_true_iff _ _).mp hq
  obtain ⟨f1, f2, f3, f4, f5⟩ := tagEndAt_some_facts _ q e hte
  have hv1 : V[k + q]? = some '<' := by
    have h2 := f1
    rw [hidx q] at h2
    exact (take_getElem?_some V n (k + q) '<' h2).2
  have hv2 : V[k + q + 1]? = some '/' := by
    have h2 := f2
    rw [hidx (q + 1)] at h2
    rw [show k + q + 1 = k + (q + 1) by omega]
    exact (take_getElem?_some V n (k + (q + 1)) '/' h2).2
  have hbound : k + e ≤ n := by
    have h2 := f4
    rw [hidx (e - 1)] at h2
    have h3 := (take_getElem?_some V n (k + (e - 1)) '>' h2).1
    omega
  have hv4 : V[k + e - 1]? = some '>' := by
    have h2 := f4
    rw [hidx (e - 1)] at h2
    have h3 := (take_getElem?_some V n (k + (e - 1)) '>' h2).2
    rw [show k + e - 1 = k + (e - 1) by omega]
    exact h3
  have hte2 : tagEndAt V (k + q) = some (k + e) := by
    refine tagEndAt_intro V (k + q) (k + e) hv1 hv2 (by omega) hv4 ?_
    intro m hm1 hm2
    have hlt : m - k < e - 1 := by omega
    have h5 := f5 (m - k) (by omega) hlt
    rw [hidx (m - k)] at h5
    intro hcontra
    apply h5
    rw [take_getElem?_of_lt V n (k + (m - k)) (by omega),
        show k + (m - k) = m by omega]
    exact hcontra
  refine ⟨k + q, (okAt_true_iff _ _).mpr ⟨k + e, hte2, ?_⟩⟩
  rw [noLtFrom_iff]
  intro m hm
  by_cases hmn : m < n
  · intro hcontra
    have hTm : (stripP isPyWs V)[m - k]? = some '<' := by
      rw [hidx (m - k), show k + (m - k) = m by omega,
          take_getElem?_of_lt V n m hmn]
      exact hcontra
    exact (noLtFrom_iff _ e).mp hnl (m - k) (by omega) hTm
  · intro hcontra
    have hws := hrem m '<' (by omega) hcontra
    simp [isPyWs] at hws

theorem truncIdx_strip_none (V : List Char)
    (hnone : truncIdx V = none) : truncIdx (stripP isPyWs V) = none := by
  cases hidx : truncIdx (stripP isPyWs V) with
  | none => rfl
  | some q =>
    exfalso
    have hidx2 : searchFrom (stripP isPyWs V) 0 (stripP isPyWs V).length = some q :=
      hidx
    have hq := (searchFrom_some _ _ 0 q hidx2).2.2.1
    obtain ⟨q2, hq2⟩ := okAt_strip_of V q hq
    obtain ⟨e2, hte2, _⟩ := (okAt_true_iff _ _).mp hq2
    have hf := (tagEndAt_some_facts V q2 e2 hte2).1
    have hlt := lt_length_of_getElem?_some V q2 '<' hf
    have hnone2 : searchFrom V 0 V.length = none := hnone
    have := searchFrom_none V V.length 0 hnone2 q2 (by omega) (by omega)
    rw [this] at hq2
    cases hq2

theorem truncAfterTag_stable (V : List Char)
    (hhead : V = [] ∨ V.head? = some '<') :
    truncAfterTag (stripP isPyWs (truncAfterTag V)) =
      stripP isPyWs (truncAfterTag V) := by
  rcases hhead with rfl | hhead
  · rfl
  · cases hidx : truncIdx V with
    | none =>
      have hV : truncAfterTag V = V := by
        unfold truncAfterTag
        rw [hidx]
      rw [hV]
      have h2 := truncIdx_strip_none V hidx
      unfold truncAfterTag
      rw [h2]
    | some p =>
      have hidx2 : searchFrom V 0 V.length = some p := hidx
      have hok := (searchFrom_some V V.length 0 p hidx2).2.2.1
      obtain ⟨e, hte, hnl⟩ := (okAt_true_iff _ _).mp hok
      have hV : truncAfterTag V = V.take e := by
        unfold truncAfterTag
        rw [hidx]
        show (match tagEndAt V p with
              | some e2 => V.take e2
              | none => V) = V.take e
        rw [hte]
      obtain ⟨f1, f2, f3, f4, f5⟩ := tagEndAt_some_facts V p e hte
      have helen : e ≤ V.length := by
        have := lt_length_of_getElem?_some V (e - 1) '>' f4
        omega
      have hlen : (V.take e).length = e := by
        rw [List.length_take]
        omega
      obtain ⟨r, hr⟩ : ∃ r, V = '<' :: r := by
        cases V with
        | nil => simp at hhead
        | cons c r2 =>
          have hc : c = '<' := by simpa using hhead
          exact ⟨r2, by rw [hc]⟩
      have hstrip : stripP isPyWs (V.take e) = V.take e := by
        apply stripP_id
        · rw [hr, show e = (e - 1) + 1 by omega, List.take_succ_cons]
          show isPyWs '<' = false
          rfl
        · refine lastP_false_of_last isPyWs _ '>' ?_ ?_
          · rw [hlen, take_getElem?_of_lt V e (e - 1) (by omega)]
            exact f4
          · rfl
      rw [hV, hstrip]
      unfold truncAfterTag
      rw [truncIdx_take V p e hidx hte]
      show (match tagEndAt (V.take e) p with
            | some e2 => (V.take e).take e2
            | none => V.take e) = V.take e
      rw [(okAt_take_self V p e hte).1]
      exact List.take_of_length_le (by rw [hlen])

/-! ## Preservation of canonical whitespace through the later steps -/

theorem wsOnly_of_mem_imp (l l2 : List Char) (hsub : ∀ c ∈ l2, c ∈ l)
    (h : wsOnlySpace l = true) : wsOnlySpace l2 = true := by
  unfold wsOnlySpace at h ⊢
  rw [List.all_eq_true] at h ⊢
  exact fun c hc => h c (hsub c hc)

theorem wsOnly_take (l : List Char) (n : Nat) (h : wsOnlySpace l = true) :
    wsOnlySpace (l.take n) = true :=
  wsOnly_of_mem_imp l _ (fun c hc => List.mem_of_mem_take hc) h

theorem wsOnly_drop (l : List Char) (n : Nat) (h : wsOnlySpace l = true) :
    wsOnlySpace (l.drop n) = true :=
  wsOnly_of_mem_imp l _ (fun c hc => List.mem_of_mem_drop hc) h

theorem wsOnly_rstripP (p : Char → Bool) (l : List Char)
    (h : wsOnlySpace l = true) : wsOnlySpace (rstripP p l) = true := by
  obtain ⟨n, _, heq, _⟩ := rstripP_spec p l
  rw [heq]
  exact wsOnly_take l n h

theorem wsOnly_dropWhile (p : Char → Bool) (l : List Char)
    (h : wsOnlySpace l = true) : wsOnlySpace (l.dropWhile p) = true := by
  obtain ⟨k, _, heq⟩ := dropWhile_eq_drop_spec p l
  rw [heq]
  exact wsOnly_drop l k h

theorem wsOnly_stripP (p : Char → Bool) (l : List Char)
    (h : wsOnlySpace l = true) : wsOnlySpace (stripP p l) = true :=
  wsOnly_dropWhile p _ (wsOnly_rstripP p l h)

theorem wsOnly_append (a b : List Char) (ha : wsOnlySpace a = true)
    (hb : wsOnlySpace b = true) : wsOnlySpace (a ++ b) = true := by
  unfold wsOnlySpace at ha hb ⊢
  rw [List.all_append, ha, hb]
  rfl

theorem noAdjWs_take (l : List Char) (h : noAdjWs l = true) :
    ∀ n, noAdjWs (l.take n) = true := by
  induction l with
  | nil => intro n; rw [List.take_nil]; rfl
  | cons c rest ih =>
    intro n
    cases n with
    | zero => rfl
    | succ m =>
      rw [List.take_succ_cons]
      cases rest with
      | nil =>
        rw [List.take_nil]
        rfl
      | cons d t =>
        cases m with
        | zero => rfl
        | succ k =>
          rw [List.take_succ_cons]
          have hpair : ((!(isPyWs c && isPyWs d)) && noAdjWs (d :: t)) = true := h
          simp only [Bool.and_eq_true] at hpair
          have htail := ih (noAdj_tail c (d :: t) h) (k + 1)
          rw [List.take_succ_cons] at htail
          show ((!(isPyWs c && isPyWs d)) && noAdjWs (d :: t.take k)) = true
          rw [hpair.1, htail]
          rfl

theorem noAdjWs_drop (l : List Char) (h : noAdjWs l = true) :
    ∀ n, noAdjWs (l.drop n) = true := by
  induction l with
  | nil => intro n; rw [List.drop_nil]; rfl
  | cons c rest ih =>
    intro n
    cases n with
    | zero => exact h
    | succ m =>
      rw [List.drop_succ_cons]
      exact ih (noAdj_tail c rest h) m

theorem noAdjWs_rstripP (p : Char → Bool) (l : List Char)
    (h : noAdjWs l = true) : noAdjWs (rstripP p l) = true := by
  obtain ⟨n, _, heq, _⟩ := rstripP_spec p l
  rw [heq]
  exact noAdjWs_take l h n

theorem noAdjWs_dropWhile (p : Char → Bool) (l : List Char)
    (h : noAdjWs l = true) : noAdjWs (l.dropWhile p) = true := by
  obtain ⟨k, _, heq⟩ := dropWhile_eq_drop_spec p l
  rw [heq]
  exact noAdjWs_drop l h k

theorem noAdjWs_stripP (p : Char → Bool) (l : List Char)
    (h : noAdjWs l = true) : noAdjWs (stripP p l) = true :=
  noAdjWs_dropWhile p _ (noAdjWs_rstripP p l h)

theorem noAdjWs_append_lastNot (a b : List Char) (ha : noAdjWs a = true)
    (hb : noAdjWs b = true) (hlast : lastP isPyWs a = false) :
    noAdjWs (a ++ b) = true := by
  induction a with
  | nil => exact hb
  | cons x t ih =>
    cases t with
    | nil =>
      have hx : isPyWs x = false := hlast
      exact noAdjWs_cons_of_not_ws x b hx hb
    | cons y t2 =>
      have hpair : ((!(isPyWs x && isPyWs y)) && noAdjWs (y :: t2)) = true := ha
      simp only [Bool.and_eq_true] at hpair
      have htail := ih (noAdj_tail x (y :: t2) ha)
        (by rw [← lastP_cons_ne isPyWs x (y :: t2) (by simp)]; exact hlast)
      show ((!(isPyWs x && isPyWs y)) && noAdjWs ((y :: t2) ++ b)) = true
      rw [hpair.1, htail]
      rfl

theorem noAdjWs_append_headNot (a b : List Char) (ha : noAdjWs a = true)
    (hb : noAdjWs b = true) (hhead : headP isPyWs b = false) :
    noAdjWs (a ++ b) = true := by
  induction a with
  | nil => exact hb
  | cons x t ih =>
    have htail := ih (noAdj_tail x t ha)
    cases t with
    | nil =>
      cases b with
      | nil => rfl
      | cons z bs =>
        have hz : isPyWs z = false := hhead
        exact noAdjWs_cons_of_head_not x z bs hz htail
    | cons y t2 =>
      have hpair : ((!(isPyWs x && isPyWs y)) && noAdjWs (y :: t2)) = true := ha
      simp only [Bool.and_eq_true] at hpair
      show ((!(isPyWs x && isPyWs y)) && noAdjWs ((y :: t2) ++ b)) = true
      rw [hpair.1, htail]
      rfl

theorem lastP_drop (p : Char → Bool) (l : List Char) :
    ∀ k, l.drop k = [] ∨ lastP p (l.drop k) = lastP p l := by
  induction l with
  | nil => intro k; left; rw [List.drop_nil]
  | cons c rest ih =>
    intro k
    cases k with
    | zero => right; rfl
    | succ m =>
      rw [List.drop_succ_cons]
      cases hr : rest with
      | nil =>
        subst hr
        left
        simp
      | cons d t =>
        subst hr
        rcases ih m with h | h
        · left; exact h
        · right
          rw [h, lastP_cons_ne p c (d :: t) (by simp)]

theorem rstripP_lastP (p : Char → Bool) (l : List Char) :
    rstripP p l = [] ∨ lastP p (rstripP p l) = false := by
  induction l with
  | nil => left; rfl
  | cons c rest ih =>
    show (if (rstripP p rest).isEmpty && p c then [] else c :: rstripP p rest) = [] ∨
      lastP p (if (rstripP p rest).isEmpty && p c then [] else c :: rstripP p rest) = false
    by_cases hcond : ((rstripP p rest).isEmpty && p c) = true
    · left; rw [if_pos hcond]
    · have hcond2 : ((rstripP p rest).isEmpty && p c) = false := by simpa using hcond
      rw [hcond2]
      simp only [Bool.false_eq_true, if_false]
      right
      rcases ih with h | h
      · rw [h]
        show p c = false
        rcases Bool.and_eq_false_iff.mp hcond2 with h2 | h2
        · rw [h] at h2
          simp at h2
        · exact h2
      · cases hr : rstripP p rest with
        | nil =>
          show p c = false
          rcases Bool.and_eq_false_iff.mp hcond2 with h2 | h2
          · rw [hr] at h2; simp at h2
          · exact h2
        | cons d t =>
          rw [lastP_cons_ne p c (d :: t) (by simp), ← hr]
          exact h

theorem lastP_stripP_ws (l : List Char) :
    lastP isPyWs (stripP isPyWs l) = false := by
  unfold stripP lstripP
  obtain ⟨k, _, heq⟩ := dropWhile_eq_drop_spec isPyWs (rstripP isPyWs l)
  rw [heq]
  rcases lastP_drop isPyWs (rstripP isPyWs l) k with h | h
  · rw [h]; rfl
  · rw [h]
    rcases rstripP_lastP isPyWs l with h2 | h2
    · rw [h2] at heq ⊢
      rfl
    · exact h2

/-! ## Head and pattern facts through the later steps -/

theorem wrapDiv_head (l : List Char) :
    wrapDiv l = [] ∨ (wrapDiv l).head? = some '<' := by
  cases l with
  | nil => left; rfl
  | cons c rest =>
    right
    show (if c = '<' then c :: rest
          else "<div>".data ++ (c :: rest) ++ "</div>".data).head? = some '<'
    by_cases hc : c = '<'
    · rw [if_pos hc, hc]
      rfl
    · rw [if_neg hc]
      rfl

theorem truncAfterTag_shape (l : List Char) :
    truncAfterTag l = l ∨
      ∃ p e, truncIdx l = some p ∧ tagEndAt l p = some e ∧ 4 ≤ e ∧
        e ≤ l.length ∧ truncAfterTag l = l.take e := by
  cases hidx : truncIdx l with
  | none =>
    left
    unfold truncAfterTag
    rw [hidx]
  | some p =>
    have hidx2 : searchFrom l 0 l.length = some p := hidx
    have hok := (searchFrom_some l l.length 0 p hidx2).2.2.1
    obtain ⟨e, hte, _⟩ := (okAt_true_iff _ _).mp hok
    obtain ⟨_, _, f3, f4, _⟩ := tagEndAt_some_facts l p e hte
    right
    refine ⟨p, e, rfl, hte, by omega, ?_, ?_⟩
    · have := lt_length_of_getElem?_some l (e - 1) '>' f4
      omega
    · unfold truncAfterTag
      rw [hidx]
      show (match tagEndAt l p with
            | some e2 => l.take e2
            | none => l) = l.take e
      rw [hte]

theorem head?_take (l : List Char) (e : Nat) (he : 1 ≤ e) :
    (l.take e).head? = l.head? := by
  cases l with
  | nil => rw [List.take_nil]
  | cons c rest =>
    rw [show e = (e - 1) + 1 by omega, List.take_succ_cons]
    rfl

theorem truncAfterTag_head (l : List Char)
    (h : l = [] ∨ l.head? = some '<') :
    truncAfterTag l = [] ∨ (truncAfterTag l).head? = some '<' := by
  rcases truncAfterTag_shape l with heq | ⟨p, e, _, _, he4, _, heq⟩
  · rw [heq]; exact h
  · rcases h with rfl | hhead
    · left
      rw [heq, List.take_nil]
    · right
      rw [heq, head?_take l e (by omega)]
      exact hhead

theorem rstripP_cons_of_not (p : Char → Bool) (c : Char) (t : List Char)
    (hc : p c = false) : rstripP p (c :: t) = c :: rstripP p t := by
  show (if (rstripP p t).isEmpty && p c then [] else c :: rstripP p t) =
    c :: rstripP p t
  rw [hc, Bool.and_false]
  rfl

theorem stripWs_head (l : List Char) (c : Char) (hh : l.head? = some c)
    (hc : isPyWs c = false) : (stripP isPyWs l).head? = some c := by
  cases l with
  | nil => cases hh
  | cons a t =>
    have hac : a = c := by simpa using hh
    subst hac
    unfold stripP lstripP
    rw [rstripP_cons_of_not isPyWs a t hc, List.dropWhile_cons, hc]
    simp only [Bool.false_eq_true, if_false]
    rfl

theorem pats_facts (pat : List Char) (hmem : pat ∈ htmlStartPats) :
    pat.head? = some '<' ∧ 3 ≤ pat.length ∧ pat.all (fun c => !isPyWs c) = true ∧
      (pat.drop 1).all (fun c => !(c = '<')) = true ∧ pat[1]? ≠ some '/' := by
  fin_cases hmem <;> exact ⟨rfl, by decide, by decide, by decide, by decide⟩

theorem getElem?_of_pre (pat l : List Char) (hpre : pat.isPrefixOf l = true)
    (j : Nat) (hj : j < pat.length) : l[j]? = pat[j]? := by
  obtain ⟨t, rfl⟩ := (isPrefixOf_iff pat l).mp hpre
  rw [List.getElem?_append, if_pos hj]

theorem okAt_ge_patLen (l pat : List Char) (hmem : pat ∈ htmlStartPats)
    (hpre : pat.isPrefixOf l = true) (p : Nat) (hok : okAt l p = true) :
    pat.length ≤ p := by
  obtain ⟨e, hte, _⟩ := (okAt_true_iff _ _).mp hok
  obtain ⟨f1, f2, _, _, _⟩ := tagEndAt_some_facts l p e hte
  obtain ⟨hhead, hlen3, _, hnolt, hnosl⟩ := pats_facts pat hmem
  by_contra hc
  push_neg at hc
  rcases Nat.eq_zero_or_pos p with rfl | hp
  · rw [getElem?_of_pre pat l hpre 1 (by omega)] at f2
    exact hnosl f2
  · rw [getElem?_of_pre pat l hpre p (by omega)] at f1
    have hdr : (pat.drop 1)[p - 1]? = some '<' := by
      rw [List.getElem?_drop, show 1 + (p - 1) = p by omega]
      exact f1
    have hmem2 : '<' ∈ pat.drop 1 := by
      rw [List.mem_iff_getElem?]
      exact ⟨p - 1, hdr⟩
    have := (List.all_eq_true.mp hnolt) '<' hmem2
    simp at this

theorem pre_take (pat l : List Char) (n : Nat)
    (hpre : pat.isPrefixOf l = true) (hn : pat.length ≤ n) :
    pat.isPrefixOf (l.take n) = true := by
  obtain ⟨t, rfl⟩ := (isPrefixOf_iff pat l).mp hpre
  refine (isPrefixOf_iff pat _).mpr ⟨t.take (n - pat.length), ?_⟩
  rw [List.take_append_eq_append_take, List.take_of_length_le hn]

theorem pre_of_pre_take (pat u : List Char) (m : Nat)
    (h : pat.isPrefixOf (u.take m) = true) : pat.isPrefixOf u = true := by
  obtain ⟨t, ht⟩ := (isPrefixOf_iff pat _).mp h
  refine (isPrefixOf_iff pat u).mpr ⟨t ++ u.drop m, ?_⟩
  conv_lhs => rw [← List.take_append_drop m u]
  rw [ht, List.append_assoc]

theorem occursIn_of_take (pat l : List Char) (n : Nat)
    (h : occursIn pat (l.take n)) : occursIn pat l := by
  obtain ⟨i, hi⟩ := h
  rw [List.drop_take] at hi
  exact ⟨i, pre_of_pre_take pat (l.drop i) (n - i) hi⟩

theorem occursIn_of_drop (pat l : List Char) (k : Nat)
    (h : occursIn pat (l.drop k)) : occursIn pat l := by
  obtain ⟨i, hi⟩ := h
  rw [List.drop_drop] at hi
  exact ⟨k + i, hi⟩

theorem noPat_take (l : List Char) (n : Nat) (h : noPat l = true) :
    noPat (l.take n) = true := by
  rw [noPat_iff] at h ⊢
  intro pat hmem
  rw [findSubFrom_eq_none_iff]
  intro hocc
  exact (findSubFrom_eq_none_iff pat l).mp (h pat hmem) (occursIn_of_take pat l n hocc)

theorem noPat_drop (l : List Char) (k : Nat) (h : noPat l = true) :
    noPat (l.drop k) = true := by
  rw [noPat_iff] at h ⊢
  intro pat hmem
  rw [findSubFrom_eq_none_iff]
  intro hocc
  exact (findSubFrom_eq_none_iff pat l).mp (h pat hmem) (occursIn_of_drop pat l k hocc)

theorem rstripP_pre (p : Char → Bool) (pat : List Char) :
    ∀ (l : List Char), pat.isPrefixOf l = true →
      (∀ c ∈ pat, p c = false) → pat.isPrefixOf (rstripP p l) = true := by
  induction pat with
  | nil => intro l _ _; cases rstripP p l <;> rfl
  | cons a pt ih =>
    intro l hpre hnp
    obtain ⟨t, rfl⟩ := (isPrefixOf_iff _ l).mp hpre
    rw [List.cons_append, rstripP_cons_of_not p a (pt ++ t)
      (hnp a (List.mem_cons_self a pt))]
    show (a == a && pt.isPrefixOf (rstripP p (pt ++ t))) = true
    rw [beq_self_eq_true]
    rw [ih (pt ++ t) ((isPrefixOf_iff pt _).mpr ⟨t, rfl⟩)
      (fun c hc => hnp c (List.mem_cons_of_mem a hc))]
    rfl

/-! ## Identity of the slicing steps on an already-clean text -/

theorem dropToLt_id (l : List Char) (h : l = [] ∨ l.head? = some '<') :
    dropToLt l = l := by
  unfold dropToLt
  by_cases ha : l.any (fun c => c = '<') = true
  · rw [if_pos ha]
    apply dropWhile_id
    rcases h with rfl | hh
    · rfl
    · cases l with
      | nil => cases hh
      | cons c t =>
        have hc : c = '<' := by simpa using hh
        subst hc
        simp [headP]
  · rw [if_neg ha]

theorem wrapDiv_id (l : List Char) (h : l = [] ∨ l.head? = some '<') :
    wrapDiv l = l := by
  rcases h with rfl | hh
  · rfl
  · cases l with
    | nil => rfl
    | cons c t =>
      have hc : c = '<' := by simpa using hh
      show (if c = '<' then c :: t
            else "<div>".data ++ (c :: t) ++ "</div>".data) = c :: t
      rw [if_pos hc]

theorem headPat_head (l : List Char) (h : headPat l) : l.head? = some '<' := by
  obtain ⟨pat, hmem, hpre⟩ := h
  obtain ⟨hh, hlen, _, _, _⟩ := pats_facts pat hmem
  obtain ⟨t, rfl⟩ := (isPrefixOf_iff pat _).mp hpre
  cases pat with
  | nil => simp at hlen
  | cons a pt =>
    have : a = '<' := by simpa using hh
    subst this
    rfl

theorem patStatus_dropToLt (l : List Char) (h : headPat l ∨ noPat l = true) :
    headPat (dropToLt l) ∨ noPat (dropToLt l) = true := by
  rcases h with hp | hn
  · left
    rw [dropToLt_id l (Or.inr (headPat_head l hp))]
    exact hp
  · right
    unfold dropToLt
    by_cases ha : l.any (fun c => c = '<') = true
    · rw [if_pos ha]
      obtain ⟨k, _, heq⟩ := dropWhile_eq_drop_spec _ l
      rw [heq]
      exact noPat_drop l k hn
    · rw [if_neg ha]
      exact hn

theorem patStatus_wrapDiv (l : List Char) (h : headPat l ∨ noPat l = true) :
    headPat (wrapDiv l) ∨ noPat (wrapDiv l) = true := by
  rcases h with hp | hn
  · left
    rw [wrapDiv_id l (Or.inr (headPat_head l hp))]
    exact hp
  · cases l with
    | nil =>
      right
      exact hn
    | cons c t =>
      by_cases hc : c = '<'
      · right
        show noPat (if c = '<' then c :: t
              else "<div>".data ++ (c :: t) ++ "</div>".data) = true
        rw [if_pos hc]
        exact hn
      · left
        show headPat (if c = '<' then c :: t
              else "<div>".data ++ (c :: t) ++ "</div>".data)
        rw [if_neg hc]
        refine ⟨"<div".data, by decide, ?_⟩
        exact (isPrefixOf_iff _ _).mpr
          ⟨'>' :: ((c :: t) ++ "</div>".data), rfl⟩

theorem patStatus_trunc (l : List Char) (h : headPat l ∨ noPat l = true) :
    headPat (truncAfterTag l) ∨ noPat (truncAfterTag l) = true := by
  rcases truncAfterTag_shape l with heq | ⟨p, e, hidx, hte, _, _, heq⟩
  · rw [heq]
    exact h
  · rcases h with ⟨pat, hmem, hpre⟩ | hn
    · left
      rw [heq]
      refine ⟨pat, hmem, pre_take pat l e hpre ?_⟩
      have hok : okAt l p = true := (searchFrom_some l l.length 0 p hidx).2.2.1
      have hple := okAt_ge_patLen l pat hmem hpre p hok
      obtain ⟨_, _, f3, _, _⟩ := tagEndAt_some_facts l p e hte
      omega
    · right
      rw [heq]
      exact noPat_take l e hn

theorem patStatus_stripWs (l : List Char) (h : headPat l ∨ noPat l = true) :
    headPat (stripP isPyWs l) ∨ noPat (stripP isPyWs l) = true := by
  rcases h with ⟨pat, hmem, hpre⟩ | hn
  · left
    obtain ⟨_, hlen, hnws, _, _⟩ := pats_facts pat hmem
    have hnp : ∀ c ∈ pat, isPyWs c = false := by
      intro c hc
      have := (List.all_eq_true.mp hnws) c hc
      simpa using this
    have hr : pat.isPrefixOf (rstripP isPyWs l) = true :=
      rstripP_pre isPyWs pat l hpre hnp
    have hhead : headP isPyWs (rstripP isPyWs l) = false := by
      obtain ⟨t, ht⟩ := (isPrefixOf_iff pat _).mp hr
      cases pat with
      | nil => simp at hlen
      | cons a pt =>
        rw [ht]
        show isPyWs a = false
        exact hnp a (List.mem_cons_self a pt)
    refine ⟨pat, hmem, ?_⟩
    unfold stripP lstripP
    rw [dropWhile_id _ _ hhead]
    exact hr
  · right
    unfold stripP lstripP
    obtain ⟨n, _, heq, _⟩ := rstripP_spec isPyWs l
    obtain ⟨k, _, heq2⟩ := dropWhile_eq_drop_spec isPyWs (rstripP isPyWs l)
    rw [heq2, heq]
    exact noPat_drop _ k (noPat_take l n hn)

/-! ## Whitespace properties of the cleaned text -/

theorem sliceAtStart_shape (l : List Char) :
    sliceAtStart l = l ∨ ∃ i, sliceAtStart l = l.drop i := by
  unfold sliceAtStart
  cases hm : minStart l with
  | none => left; rfl
  | some i =>
    by_cases hi : 0 < i
    · right
      refine ⟨i, ?_⟩
      show (if 0 < i then l.drop i else l) = l.drop i
      rw [if_pos hi]
    · left
      show (if 0 < i then l.drop i else l) = l
      rw [if_neg hi]

theorem dropToLt_shape (l : List Char) :
    dropToLt l = l ∨ ∃ k, dropToLt l = l.drop k := by
  unfold dropToLt
  by_cases ha : l.any (fun c => c = '<') = true
  · right
    obtain ⟨k, _, heq⟩ := dropWhile_eq_drop_spec _ l
    rw [if_pos ha]
    exact ⟨k, heq⟩
  · left
    rw [if_neg ha]

theorem wrapDiv_props (l : List Char) (hws : wsOnlySpace l = true)
    (hadj : noAdjWs l = true) :
    wsOnlySpace (wrapDiv l) = true ∧ noAdjWs (wrapDiv l) = true := by
  cases l with
  | nil => exact ⟨rfl, rfl⟩
  | cons c t =>
    by_cases hc : c = '<'
    · constructor
      · show wsOnlySpace (if c = '<' then c :: t
              else "<div>".data ++ (c :: t) ++ "</div>".data) = true
        rw [if_pos hc]
        exact hws
      · show noAdjWs (if c = '<' then c :: t
              else "<div>".data ++ (c :: t) ++ "</div>".data) = true
        rw [if_pos hc]
        exact hadj
    · constructor
      · show wsOnlySpace (if c = '<' then c :: t
              else "<div>".data ++ (c :: t) ++ "</div>".data) = true
        rw [if_neg hc]
        exact wsOnly_append _ _ (wsOnly_append _ _ (by decide) hws) (by decide)
      · show noAdjWs (if c = '<' then c :: t
              else "<div>".data ++ (c :: t) ++ "</div>".data) = true
        rw [if_neg hc]
        exact noAdjWs_append_headNot _ _
          (noAdjWs_append_lastNot _ _ (by decide) hadj (by decide))
          (by decide) (by decide)

theorem wsProps_tail (S : List Char) (hws : wsOnlySpace S = true)
    (hadj : noAdjWs S = true) :
    wsOnlySpace (stripP isPyWs (truncAfterTag (wrapDiv (dropToLt
      (sliceAtStart S))))) = true ∧
    noAdjWs (stripP isPyWs (truncAfterTag (wrapDiv (dropToLt
      (sliceAtStart S))))) = true := by
  have h1 : wsOnlySpace (sliceAtStart S) = true ∧ noAdjWs (sliceAtStart S) = true := by
    rcases sliceAtStart_shape S with heq | ⟨i, heq⟩
    · rw [heq]
      exact ⟨hws, hadj⟩
    · rw [heq]
      exact ⟨wsOnly_drop S i hws, noAdjWs_drop S hadj i⟩
  have h2 : wsOnlySpace (dropToLt (sliceAtStart S)) = true ∧
      noAdjWs (dropToLt (sliceAtStart S)) = true := by
    rcases dropToLt_shape (sliceAtStart S) with heq | ⟨k, heq⟩
    · rw [heq]
      exact h1
    · rw [heq]
      exact ⟨wsOnly_drop _ k h1.1, noAdjWs_drop _ h1.2 k⟩
  have h3 := wrapDiv_props _ h2.1 h2.2
  have h4 : wsOnlySpace (truncAfterTag (wrapDiv (dropToLt (sliceAtStart S)))) = true ∧
      noAdjWs (truncAfterTag (wrapDiv (dropToLt (sliceAtStart S)))) = true := by
    rcases truncAfterTag_shape (wrapDiv (dropToLt (sliceAtStart S))) with heq |
      ⟨p, e, _, _, _, _, heq⟩
    · rw [heq]
      exact h3
    · rw [heq]
      exact ⟨wsOnly_take _ e h3.1, noAdjWs_take _ h3.2 e⟩
  exact ⟨wsOnly_stripP _ _ h4.1, noAdjWs_stripP _ _ h4.2⟩

theorem headNotWs_of_headLt (T : List Char) (h : T = [] ∨ T.head? = some '<') :
    headNotWs T = true := by
  rcases h with rfl | hh
  · rfl
  · cases T with
    | nil => rfl
    | cons c t =>
      have : c = '<' := by simpa using hh
      subst this
      show (!isPyWs '<') = true
      decide

theorem headP_ws_of_headNot (T : List Char) (h : headNotWs T = true) :
    headP isPyWs T = false := by
  cases T with
  | nil => rfl
  | cons c t =>
    show isPyWs c = false
    have hc : (!isPyWs c) = true := h
    simpa using hc

theorem headP_quote_of_headLt (T : List Char) (h : T = [] ∨ T.head? = some '<') :
    headP isQuote T = false := by
  rcases h with rfl | hh
  · rfl
  · cases T with
    | nil => rfl
    | cons c t =>
      have : c = '<' := by simpa using hh
      subst this
      show isQuote '<' = false
      decide

theorem lastP_imp (p q : Char → Bool) (l : List Char)
    (himp : ∀ c, p c = true → q c = true) (h : lastP q l = false) :
    lastP p l = false := by
  induction l with
  | nil => rfl
  | cons c t ih =>
    cases t with
    | nil =>
      show p c = false
      have hq : q c = false := h
      cases hp : p c
      · rfl
      · rw [himp c hp] at hq
        cases hq
    | cons d u =>
      show lastP p (d :: u) = false
      exact ih h

theorem stripWs_headLt (V : List Char) (h : V = [] ∨ V.head? = some '<') :
    stripP isPyWs V = [] ∨ (stripP isPyWs V).head? = some '<' := by
  rcases h with rfl | hh
  · left
    rfl
  · right
    exact stripWs_head V '<' hh (by decide)

/-! ## The cleaned text is a fixed point of a second cleaning pass -/

theorem cleanCore_pats (l : List Char) :
    headPat (cleanCore l) ∨ noPat (cleanCore l) = true :=
  patStatus_stripWs _ (patStatus_trunc _ (patStatus_wrapDiv _
    (patStatus_dropToLt _ (sliceAtStart_cases _))))

theorem cleanCore_headLt (l : List Char) :
    cleanCore l = [] ∨ (cleanCore l).head? = some '<' :=
  stripWs_headLt _ (truncAfterTag_head _ (wrapDiv_head _))

theorem cleanCore_wsProps (l : List Char) :
    wsOnlySpace (cleanCore l) = true ∧ noAdjWs (cleanCore l) = true := by
  obtain ⟨w1, w2, _, _⟩ := collapseWs_props
    (replaceChar '\t' ' ' (removeChar '\r' (replaceChar '\n' ' ' (removeLitN l))))
  exact wsProps_tail _
    (wsOnly_stripP _ _ (wsOnly_rstripP _ _ w1))
    (noAdjWs_stripP _ _ (noAdjWs_rstripP _ _ w2))

theorem cleanCore_lastPws (l : List Char) :
    lastP isPyWs (cleanCore l) = false := by
  unfold cleanCore
  exact lastP_stripP_ws _

theorem cleanCore_truncStable (l : List Char) :
    truncAfterTag (cleanCore l) = cleanCore l := by
  unfold cleanCore
  exact truncAfterTag_stable _ (wrapDiv_head _)

theorem cleanCore_id (T : List Char)
    (hws : wsOnlySpace T = true) (hadj : noAdjWs T = true)
    (hheadlt : T = [] ∨ T.head? = some '<')
    (hpat : headPat T ∨ noPat T = true)
    (hlastws : lastP isPyWs T = false)
    (hstable : truncAfterTag T = T)
    (h1 : hasLitN T = false)
    (h2 : lastP (fun c => isJunkEnd c || isQuote c) T = false) :
    cleanCore T = T := by
  have hhead : headNotWs T = true := headNotWs_of_headLt T hheadlt
  have s1 : removeLitN T = T := removeLitN_id T h1
  have s2 : replaceChar '\n' ' ' T = T :=
    replaceChar_id _ _ _ (wsOnly_not_mem T hws '\n' (by decide) (by decide))
  have s3 : removeChar '\r' T = T :=
    removeChar_id _ _ (wsOnly_not_mem T hws '\r' (by decide) (by decide))
  have s4 : replaceChar '\t' ' ' T = T :=
    replaceChar_id _ _ _ (wsOnly_not_mem T hws '\t' (by decide) (by decide))
  have s5 : collapseWs T = T := collapseWs_id T hws hadj hhead hlastws
  have hjunk : lastP isJunkEnd T = false := by
    refine lastP_imp _ _ T (fun c hc => ?_) h2
    rw [hc]
    rfl
  have s6 : rstripP isJunkEnd T = T := rstripP_id _ _ hjunk
  have hquoteLast : lastP isQuote T = false := by
    refine lastP_imp _ _ T (fun c hc => ?_) h2
    rw [hc, Bool.or_true]
  have s7 : stripP isQuote T = T :=
    stripP_id _ _ (headP_quote_of_headLt T hheadlt) hquoteLast
  have s8 : sliceAtStart T = T := sliceAtStart_id T hpat
  have s9 : dropToLt T = T := dropToLt_id T hheadlt
  have s10 : wrapDiv T = T := wrapDiv_id T hheadlt
  have s12 : stripP isPyWs T = T :=
    stripP_id _ _ (headP_ws_of_headNot T hhead) hlastws
  unfold cleanCore
  rw [s1, s2, s3, s4, s5, s6, s7, s8, s9, s10, hstable, s12]

theorem cleanCore_idem (l : List Char)
    (h1 : hasLitN (cleanCore l) = false)
    (h2 : lastP (fun c => isJunkEnd c || isQuote c) (cleanCore l) = false) :
    cleanCore (cleanCore l) = cleanCore l := by
  have hws := cleanCore_wsProps l
  exact cleanCore_id (cleanCore l) hws.1 hws.2 (cleanCore_headLt l)
    (cleanCore_pats l) (cleanCore_lastPws l) (cleanCore_truncStable l) h1 h2

/-- C7 (counterexample): the HTML cleaner is NOT idempotent for every string.
On the input `<a}"` the first pass strips only the trailing quote (the
`rstrip` of `\x7d]）` runs before the quote `strip`, so the `\x7d` survives
behind the quote), and the second pass then strips the now-exposed `\x7d`:
`clean("<a\x7d\"") = "<a\x7d"` but `clean("<a\x7d") = "<a"`. -/
theorem c7_counterexample :
    clean_html_response (clean_html_response (String.mk ['<', 'a', '}', '"'])) ≠
      clean_html_response (String.mk ['<', 'a', '}', '"']) := by
  decide

/-- C7 (amended): the HTML cleaner is idempotent on every input whose cleaned
form contains no literal backslash-`n` two-character sequence and does not end
in one of the stripped trailing characters `\x7d`, `]`, `)`, `"`, `'`.  Under
these two conditions every stage of a second pass over `clean(x)` is the
identity, so `clean(clean(x)) = clean(x)`. -/
theorem c7_amended (x : String)
    (h1 : hasLitN (clean_html_response x).data = false)
    (h2 : lastP (fun c => isJunkEnd c || isQuote c) (clean_html_response x).data = false) :
    clean_html_response (clean_html_response x) = clean_html_response x := by
  by_cases hx : x = ""
  · subst hx
    rfl
  · have hcx : clean_html_response x = String.mk (cleanCore x.data) := by
      unfold clean_html_response
      rw [if_neg hx]
    rw [hcx] at h1 h2 ⊢
    by_cases hT : cleanCore x.data = []
    · rw [hT]
      rfl
    · have hne : String.mk (cleanCore x.data) ≠ "" := by
        intro hcontra
        exact hT (congrArg String.data hcontra)
      unfold clean_html_response
      rw [if_neg hne]
      show String.mk (cleanCore (cleanCore x.data)) = String.mk (cleanCore x.data)
      rw [cleanCore_idem x.data h1 h2]

/-- Witness for C7 (amended): on `<div>ok</div>` the cleaned form satisfies
both side conditions and cleaning is idempotent. -/
theorem c7_witness :
    clean_html_response (clean_html_response "<div>ok</div>") =
      clean_html_response "<div>ok</div>" :=
  c7_amended "<div>ok</div>" (by decide) (by decide)
